import Mathlib

/-!
Verification of the license-grouping core of go-licenses
(`licenses/library.go`).

The development shallowly embeds the Go source:

* `GoModule`, `Package`, `Library` mirror the Go structs; `Input` bundles
  the arguments of `Libraries` together with the externally loaded package
  graph (the graph loader and the license locator `Find` are external
  collaborators, so they appear as data: `graph`, `roots`, `find`).
* Go strings are modelled as `String` and manipulated through their
  character lists; `sortStrings` models `sort.Strings` (any sorted
  permutation of strings is unique, so the choice of algorithm is
  irrelevant).
* `packages.Visit` is a deterministic depth-first preorder traversal whose
  pre-callback both filters and records packages; it is embedded as the
  fuel-based worklist loop `visitLoop` (the fuel `fuelFor` is an exact
  bound on the number of loop steps, established by the `potential`
  lemmas below).
* The `pkgsByLicense` Go map has unspecified iteration order and the final
  `sort.Slice` is not a stable sort, so besides the executable canonical
  run `LibrariesModel` (first-insertion bucket order, stable sort) the
  relation `ValidOutcome` captures every output the Go code may produce.
* `Library.Name` calls `commonAncestor`, which sorts the member slice
  in place; because the final `sort.Slice` comparator invokes `Name` on
  every element (whenever there are at least two libraries), each returned
  library has had its member slice sorted.  `nameEffect` models this
  mutation.
-/

set_option maxRecDepth 4000

namespace GoLicenses

/-! ## Character-list string helpers -/

/-- Index of the last occurrence of the path separator in a character
list, if any (used to model the `lastSlashIndex` accumulator of
`commonAncestor` and `filepath.Dir`). -/
def lastSlashIdx : List Char → Option Nat
  | [] => none
  | c :: cs =>
    match lastSlashIdx cs with
    | some j => some (j + 1)
    | none => if c = '/' then some 0 else none

/-- Longest common leading character run of two character lists. -/
def commonChars : List Char → List Char → List Char
  | a :: as, b :: bs => if a = b then a :: commonChars as bs else []
  | _, _ => []

/-- strings.HasPrefix, on the character lists of the two strings. -/
def hasPrefixB (s pre : String) : Bool := pre.data.isPrefixOf s.data

/-- strings.HasSuffix, on the character lists of the two strings. -/
def hasSuffixB (s suf : String) : Bool := suf.data.isSuffixOf s.data

/-- First occurrence split: if `sep` occurs inside `l`, return the part
before the first occurrence and the part after it (models the two pieces
produced by strings.SplitN with limit 2). -/
def splitFirst (sep : List Char) : List Char → Option (List Char × List Char)
  | [] => none
  | c :: cs =>
    if sep.isPrefixOf (c :: cs) then some ([], (c :: cs).drop sep.length)
    else
      match splitFirst sep cs with
      | some (pre, post) => some (c :: pre, post)
      | none => none

/-- Splits a character list on the path separator; the resulting segments
never contain the separator and the separators themselves are dropped. -/
def splitSegsAux (cur : List Char) : List Char → List (List Char)
  | [] => [cur.reverse]
  | c :: cs => if c = '/' then cur.reverse :: splitSegsAux [] cs else splitSegsAux (c :: cur) cs

/-- Path segments of a string (split on the separator). -/
def splitSegs (s : String) : List (List Char) := splitSegsAux [] s.data

/-- Joins path segments back with the separator (strings.Join with sep). -/
def joinSegs : List (List Char) → List Char
  | [] => []
  | [s] => s
  | s :: rest => s ++ '/' :: joinSegs rest

/-- Strict lexicographic comparison of character lists by scalar value
(the byte order Go uses to compare strings, restricted to ASCII
content). -/
def ltCharsB : List Char → List Char → Bool
  | [], [] => false
  | [], _ :: _ => true
  | _ :: _, [] => false
  | a :: as, b :: bs =>
    if a.toNat < b.toNat then true
    else if b.toNat < a.toNat then false
    else ltCharsB as bs

/-- Lexicographic order on strings (the order of sort.Strings). -/
def strLe (a b : String) : Prop := ltCharsB b.data a.data = false

instance : DecidableRel strLe :=
  fun a b => inferInstanceAs (Decidable (_ = false))

/-- sort.Strings: lexicographic sorting of a string slice.  Sorted
permutations of strings are unique, so insertion sort represents the Go
sort exactly. -/
def sortStrings (l : List String) : List String :=
  List.insertionSort strLe l

theorem ltCharsB_irrefl : ∀ l : List Char, ltCharsB l l = false
  | [] => rfl
  | a :: as => by simp [ltCharsB, ltCharsB_irrefl as]

theorem ltCharsB_trans : ∀ a b c : List Char,
    ltCharsB a b = true → ltCharsB b c = true → ltCharsB a c = true
  | [], [], _, h1, _ => by simp [ltCharsB] at h1
  | [], _ :: _, [], _, h2 => by simp [ltCharsB] at h2
  | [], _ :: _, _ :: _, _, _ => rfl
  | _ :: _, [], _, h1, _ => by simp [ltCharsB] at h1
  | _ :: _, _ :: _, [], _, h2 => by simp [ltCharsB] at h2
  | a :: as, b :: bs, c :: cs, h1, h2 => by
    simp only [ltCharsB] at h1 h2 ⊢
    rcases Nat.lt_trichotomy a.toNat b.toNat with hab | hab | hab
    · rcases Nat.lt_trichotomy b.toNat c.toNat with hbc | hbc | hbc
      · rw [if_pos (by omega)]
      · rw [if_pos (by omega)]
      · rw [if_neg (by omega), if_pos hbc] at h2
        exact absurd h2 (by simp)
    · rw [if_neg (by omega), if_neg (by omega)] at h1
      rcases Nat.lt_trichotomy b.toNat c.toNat with hbc | hbc | hbc
      · rw [if_pos (by omega)]
      · rw [if_neg (by omega), if_neg (by omega)] at h2
        rw [if_neg (by omega), if_neg (by omega)]
        exact ltCharsB_trans as bs cs h1 h2
      · rw [if_neg (by omega), if_pos (by omega)] at h2
        exact absurd h2 (by simp)
    · rw [if_neg (by omega), if_pos (by omega)] at h1
      exact absurd h1 (by simp)

theorem ltCharsB_eq_of_not_lt : ∀ a b : List Char,
    ltCharsB a b = false → ltCharsB b a = false → a = b
  | [], [], _, _ => rfl
  | [], _ :: _, h1, _ => by simp [ltCharsB] at h1
  | _ :: _, [], _, h2 => by simp [ltCharsB] at h2
  | a :: as, b :: bs, h1, h2 => by
    simp only [ltCharsB] at h1 h2
    by_cases hab : a.toNat < b.toNat
    · simp [hab] at h1
    · by_cases hba : b.toNat < a.toNat
      · simp [hba] at h2
      · rw [if_neg hab, if_neg hba] at h1
        rw [if_neg hba, if_neg hab] at h2
        have hn : a.toNat = b.toNat := by omega
        have heq : a = b := Char.eq_of_val_eq (UInt32.ext hn)
        rw [heq, ltCharsB_eq_of_not_lt as bs h1 h2]

theorem strExt (a b : String) (h : a.data = b.data) : a = b := by
  cases a
  cases b
  exact congrArg String.mk (by simpa using h)

instance : IsTotal String strLe where
  total := by
    intro a b
    cases hab : ltCharsB b.data a.data
    · exact Or.inl hab
    · right
      show ltCharsB a.data b.data = false
      cases hba : ltCharsB a.data b.data
      · rfl
      · exfalso
        have := ltCharsB_trans _ _ _ hab hba
        rw [ltCharsB_irrefl] at this
        exact Bool.false_ne_true this

instance : IsTrans String strLe where
  trans := by
    intro a b c h1 h2
    have h1' : ltCharsB b.data a.data = false := h1
    have h2' : ltCharsB c.data b.data = false := h2
    show ltCharsB c.data a.data = false
    cases hca : ltCharsB c.data a.data
    · rfl
    · exfalso
      cases hab : ltCharsB a.data b.data
      · have hd : a.data = b.data := ltCharsB_eq_of_not_lt _ _ hab h1'
        rw [hd] at hca
        rw [hca] at h2'
        simp at h2'
      · have := ltCharsB_trans _ _ _ hca hab
        rw [this] at h2'
        simp at h2'

instance : IsAntisymm String strLe where
  antisymm := by
    intro a b h1 h2
    have h1' : ltCharsB b.data a.data = false := h1
    have h2' : ltCharsB a.data b.data = false := h2
    exact strExt a b (ltCharsB_eq_of_not_lt a.data b.data h2' h1')

theorem sortStrings_perm (l : List String) : List.Perm (sortStrings l) l :=
  List.perm_insertionSort strLe l

theorem sortStrings_sorted (l : List String) : List.Sorted strLe (sortStrings l) :=
  List.sorted_insertionSort strLe l

theorem sortStrings_eq_of_perm_sorted (l l' : List String)
    (hp : List.Perm l l') (hs : List.Sorted strLe l) :
    sortStrings l' = l :=
  List.eq_of_perm_of_sorted ((sortStrings_perm l').trans hp.symm) (sortStrings_sorted l') hs

theorem sortStrings_idem (l : List String) :
    sortStrings (sortStrings l) = sortStrings l :=
  sortStrings_eq_of_perm_sorted (sortStrings l) (sortStrings l) (List.Perm.refl _)
    (sortStrings_sorted l)

/-! ## Data model (`licenses/library.go` and golang.org/x/tools/go/packages) -/

/-- Go module metadata as used by `Libraries`: import path, version and
local directory (`packages.Module`). -/
structure GoModule where
  path : String
  version : String
  dir : String
deriving DecidableEq, Repr

/-- The slice of a `packages.Package` that `Libraries` consumes: import
path, package name, the file lists, the owning module (nil-able), the
number of load errors and the import edges (import paths). -/
structure Package where
  pkgPath : String
  name : String
  goFiles : List String
  compiledGoFiles : List String
  otherFiles : List String
  module : Option GoModule
  numErrors : Nat
  imports : List String
deriving DecidableEq, Repr

/-- `Library` from `library.go`: a collection of packages covered by the
same license file. -/
structure Library where
  licensePath : String
  packages : List String
  module : Option GoModule
deriving DecidableEq, Repr

/-- The two aborting error classes of `Libraries`: `PackagesError`
(some visited package carries load errors) and the aggregated
missing-module-info error. -/
inductive LibErr where
  | packagesError
  | otherError
deriving DecidableEq, Repr

/-- The whole input of one `Libraries` run: the build environment
(`GOROOT`), the flags, the external license locator `find`
(a locator failure is already folded to the empty license path, exactly
as the Go code treats it), the loaded package graph and the root import
paths. -/
structure Input where
  goroot : String
  includeTests : Bool
  ignoredPaths : List String
  find : String → String → String
  graph : List Package
  roots : List String

/-- Looks an import path up in the loaded graph. -/
def findPkg (g : List Package) (path : String) : Option Package :=
  g.find? (fun p => p.pkgPath = path)

/-- The root `*packages.Package` values returned by `packages.Load`. -/
def rootPackages (inp : Input) : List Package :=
  inp.roots.filterMap (findPkg inp.graph)

/-! ## Path functions (`path/filepath` for the slash separator) -/

/-- One pass of `filepath.Clean` over already-split segments: empty and
dot segments are dropped, a dotdot segment pops the previous segment
unless there is none (kept if the path is relative, dropped at the root
of an absolute path). -/
def cleanSegs (rooted : Bool) : List (List Char) → List (List Char) → List (List Char)
  | acc, [] => acc.reverse
  | acc, s :: rest =>
    if s = [] ∨ s = ['.'] then cleanSegs rooted acc rest
    else if s = ['.', '.'] then
      match acc with
      | [] => if rooted then cleanSegs rooted [] rest else cleanSegs rooted [['.', '.']] rest
      | t :: acc' =>
        if t = ['.', '.'] then cleanSegs rooted (['.', '.'] :: acc) rest
        else cleanSegs rooted acc' rest
    else cleanSegs rooted (s :: acc) rest

/-- filepath.Clean for the slash separator. -/
def filepathClean (p : String) : String :=
  if p = "" then "."
  else if p.data.headD ' ' = '/' then
    if cleanSegs true [] (splitSegs p) = [] then "/"
    else String.mk ('/' :: joinSegs (cleanSegs true [] (splitSegs p)))
  else
    if cleanSegs false [] (splitSegs p) = [] then "."
    else String.mk (joinSegs (cleanSegs false [] (splitSegs p)))

/-- filepath.Dir: everything up to (and including) the final separator,
then cleaned; a path without separator gives the dot directory. -/
def filepathDir (p : String) : String :=
  filepathClean (String.mk ((p.data.reverse.dropWhile (fun c => c ≠ '/')).reverse))

/-- Path elements that `filepath.Rel` scans over in a cleaned path: the
root path contributes a single empty element, everything else is split on
the separator (an absolute path then starts with one empty element,
matching the byte scan of the Go implementation). -/
def relElems (cleaned : String) : List (List Char) :=
  if cleaned = "/" then [[]] else splitSegs cleaned

/-- Strips the common leading elements of two element lists, returning
both remainders (the element scan of `filepath.Rel`). -/
def relSegs : List (List Char) → List (List Char) → List (List Char) × List (List Char)
  | b :: bs, t :: ts => if b = t then relSegs bs ts else (b :: bs, t :: ts)
  | bs, ts => (bs, ts)

/-- The base path as filepath.Rel normalises it: cleaned, with the dot
directory replaced by the empty string. -/
def relBaseC (basepath : String) : String :=
  if filepathClean basepath = "." then "" else filepathClean basepath

/-- The two element-list remainders scanned by filepath.Rel. -/
def relBsegs (basepath targpath : String) : List (List Char) × List (List Char) :=
  relSegs (if relBaseC basepath = "" then [] else relElems (relBaseC basepath))
    (relElems (filepathClean targpath))

/-- filepath.Rel for the slash separator: cleans both paths, requires
them to be both absolute or both relative, refuses an unmatched dotdot
base element, and otherwise builds the relative path from dotdot steps
plus the remaining target elements. -/
def filepathRel (basepath targpath : String) : Except String String :=
  if filepathClean targpath = filepathClean basepath then .ok "."
  else if ((relBaseC basepath).data.headD ' ' == '/')
      ≠ ((filepathClean targpath).data.headD ' ' == '/') then
    .error ("Rel: cannot make " ++ targpath ++ " relative to " ++ basepath)
  else
    match (relBsegs basepath targpath).1 with
    | [] => .ok (String.mk (joinSegs (relBsegs basepath targpath).2))
    | b :: bs =>
      if b = ['.', '.'] then
        .error ("Rel: cannot make " ++ targpath ++ " relative to " ++ basepath)
      else
        .ok (String.mk
          (if (relBsegs basepath targpath).2 = []
           then joinSegs (List.replicate (b :: bs).length ['.', '.'])
           else joinSegs (List.replicate (b :: bs).length ['.', '.'])
             ++ '/' :: joinSegs (relBsegs basepath targpath).2))

/-! ## commonAncestor and Library.Name (`library.go` lines 205-233) -/

/-- The index loop of `commonAncestor`: walks the two character lists in
step, keeping the index of the last separator seen before the current
position; stops with that index at the first mismatch, or signals (with
`none`) that one of the lists was exhausted without mismatch. -/
def caScan : List Char → List Char → Nat → Nat → Option Nat
  | a :: as, b :: bs, lastSlash, i =>
    if a ≠ b then some lastSlash
    else caScan as bs (if a = '/' then i else lastSlash) (i + 1)
  | _, _, _, _ => none

/-- commonAncestor from `library.go`: empty input gives the empty name, a
single path is returned verbatim, otherwise the paths are sorted and the
first and last are compared character by character, truncating at the
last separator before the first mismatch (the whole smallest path if
there is no mismatch). -/
def commonAncestor (paths : List String) : String :=
  match paths with
  | [] => ""
  | [p] => p
  | _ =>
    let sorted := sortStrings paths
    let mn := sorted.headD ""
    let mx := sorted.getLastD ""
    match caScan mn.data mx.data 0 0 with
    | some lastSlash => String.mk (mn.data.take lastSlash)
    | none => mn

/-- Library.Name: the common prefix of the member import paths. -/
def Library.Name (l : Library) : String := commonAncestor l.packages

/-- Modelled from the spec: the display name of a multi-member library is
the longest common path-segment prefix of its member import paths,
computed by sorting the members lexicographically, taking the longest
common character prefix of the first and the last entry, and truncating
it at the last separator boundary before the first mismatch (the whole
first entry when it is exhausted without mismatch). -/
def specSegmentName (paths : List String) : String :=
  let sorted := sortStrings paths
  let mn := (sorted.headD "").data
  let mx := (sorted.getLastD "").data
  let p := commonChars mn mx
  if p.length = min mn.length mx.length then String.mk mn
  else String.mk (p.take ((lastSlashIdx p).getD 0))

/-! ## Package filter (`library.go` lines 78-127, 294-314) -/

/-- isStdLib: the unsafe package, or a package whose first Go file lives
under `GOROOT` (with a separator appended when missing). -/
def isStdLib (goroot : String) (p : Package) : Bool :=
  if p.name = "unsafe" then true
  else
    match p.goFiles with
    | [] => false
    | f :: _ =>
      let pre := if hasSuffixB goroot "/" then goroot else goroot ++ "/"
      hasPrefixB f pre

/-- isTestBinary: the import path carries the test-binary suffix. -/
def isTestBinary (p : Package) : Bool := hasSuffixB p.pkgPath ".test"

/-- The package directory: directory of the first Go file, else of the
first compiled Go file, else of the first other file, else none (empty
package). -/
def pkgDirOf (p : Package) : Option String :=
  match p.goFiles with
  | f :: _ => some (filepathDir f)
  | [] =>
    match p.compiledGoFiles with
    | f :: _ => some (filepathDir f)
    | [] =>
      match p.otherFiles with
      | f :: _ => some (filepathDir f)
      | [] => none

/-- Outcome of the pre-visit callback of `Libraries` for one package, in
the exact order of the checks in the Go code. -/
inductive StepKind where
  | cutErr
  | cutStd
  | cutTest
  | descendIgnored
  | descendEmpty
  | cutNoModule
  | record (license : String)
deriving DecidableEq, Repr

/-- The pre-visit callback decision for a package: load errors, standard
library and (when tests are included) test binaries stop the descent;
an ignore-prefix match skips the package but keeps descending; an empty
package keeps descending without being recorded; a missing module is a
collected fatal condition; otherwise the package is recorded under the
license path discovered by the locator. -/
def classify (inp : Input) (p : Package) : StepKind :=
  if 0 < p.numErrors then .cutErr
  else if isStdLib inp.goroot p then .cutStd
  else if inp.includeTests && isTestBinary p then .cutTest
  else if inp.ignoredPaths.any (fun i => hasPrefixB p.pkgPath i) then .descendIgnored
  else
    match pkgDirOf p with
    | none => .descendEmpty
    | some dir =>
      match p.module with
      | none => .cutNoModule
      | some m => .record (inp.find dir m.dir)

/-- Whether the traversal descends into the package's imports after this
decision (the boolean returned by the pre callback). -/
def descends : StepKind → Bool
  | .cutErr => false
  | .cutStd => false
  | .cutTest => false
  | .cutNoModule => false
  | .descendIgnored => true
  | .descendEmpty => true
  | .record _ => true

/-- The recorded bucket entries contributed by this decision. -/
def recordOf (k : StepKind) (p : Package) : List (String × Package) :=
  match k with
  | .record lic => [(lic, p)]
  | _ => []

/-- Whether the decision raises the aggregate load-error flag. -/
def raisesPkgErr : StepKind → Bool
  | .cutErr => true
  | _ => false

/-- Whether the decision raises the missing-module-info flag. -/
def raisesOtherErr : StepKind → Bool
  | .cutNoModule => true
  | _ => false

/-- Mutable state of the `packages.Visit` closure in `Libraries`: the
seen set, the two error flags and the `pkgsByLicense` insertions in
order. -/
structure TravState where
  visited : List String
  pkgErr : Bool
  otherErr : Bool
  recorded : List (String × Package)
deriving Repr

/-- Number of loop steps still chargeable to unvisited packages: the sum
of the import counts of all graph packages not yet seen. -/
def potential (inp : Input) (visited : List String) : Nat :=
  ((inp.graph.filter (fun p => ! visited.contains p.pkgPath)).map
    (fun p => p.imports.length)).sum

/-- The `packages.Visit` driver as a fuel-based worklist loop: a seen or
unresolvable path is skipped, otherwise the package is marked seen, the
pre-callback decision is applied to the state, and (when the decision
descends) the imports are pushed in sorted order, exactly as
`packages.Visit` sorts the import map keys. -/
def visitLoop (inp : Input) : Nat → TravState → List String → TravState
  | 0, st, _ => st
  | _ + 1, st, [] => st
  | fuel + 1, st, path :: rest =>
    if st.visited.contains path then visitLoop inp fuel st rest
    else
      match findPkg inp.graph path with
      | none => visitLoop inp fuel st rest
      | some p =>
        let k := classify inp p
        let st' : TravState :=
          { visited := path :: st.visited
            pkgErr := st.pkgErr || raisesPkgErr k
            otherErr := st.otherErr || raisesOtherErr k
            recorded := st.recorded ++ recordOf k p }
        let children := if descends k then sortStrings p.imports else []
        visitLoop inp fuel st' (children ++ rest)

/-- Fuel on which `visitLoop` provably runs to completion: one step per
initial root plus one step per import edge of the graph. -/
def fuelFor (inp : Input) : Nat := inp.roots.length + potential inp []

/-- The whole filtering traversal of `Libraries`. -/
def traverse (inp : Input) : TravState :=
  visitLoop inp (fuelFor inp) ⟨[], false, false, []⟩ inp.roots

/-! ## Library grouper (`library.go` lines 137-203) -/

/-- Accumulator pass computing first-occurrence deduplication. -/
def dedupFirstAux (seen : List String) : List String → List String
  | [] => []
  | k :: ks =>
    if seen.contains k then dedupFirstAux seen ks
    else k :: dedupFirstAux (k :: seen) ks

/-- Keys of the license buckets in first-insertion order (the canonical
order; the Go map iterates them in an unspecified order, which
`ValidOutcome` quantifies over). -/
def dedupFirst (l : List String) : List String := dedupFirstAux [] l

/-- The packages inserted under one license key, in insertion order. -/
def bucketOf (recorded : List (String × Package)) (key : String) : List Package :=
  (recorded.filter (fun r => r.1 = key)).map Prod.snd

/-- The license buckets with their insertion-ordered contents. -/
def buckets (recorded : List (String × Package)) : List (String × List Package) :=
  (dedupFirst (recorded.map Prod.fst)).map (fun k => (k, bucketOf recorded k))

/-- Module of the first bucket member that has one (the loop that sets
`lib.module` when it is still nil). -/
def firstModule : List Package → Option GoModule
  | [] => none
  | p :: rest =>
    match p.module with
    | some m => some m
    | none => firstModule rest

/-- strings.SplitN on the vendor marker with limit 2: the part before the
first occurrence and the remainder, or nothing when the marker does not
occur (fewer than two parts). -/
def splitVendor (s : String) : Option (String × String) :=
  match splitFirst "/vendor/".data s.data with
  | some (pre, post) => some (String.mk pre, String.mk post)
  | none => none

/-- Whether a root package's module directory equals the candidate parent
module directory. -/
def moduleDirIs (p : Package) (d : String) : Bool :=
  match p.module with
  | some m => m.dir = d
  | none => false

/-- The vendoring resolver (`library.go` lines 159-195): a library whose
module has a non-empty path but an empty directory is reattributed to the
module of the first root package whose module directory equals the part
of the license path before the vendor marker; in every other case the
library is returned unchanged (diagnostics only). -/
def fixVendoredModule (rootPkgs : List Package) (lib : Library) : Library :=
  match lib.module with
  | none => lib
  | some m =>
    if m.path ≠ "" ∧ m.dir = "" then
      match splitVendor lib.licensePath with
      | none => lib
      | some (parentModDir, _) =>
        match rootPkgs.find? (fun rp => moduleDirIs rp parentModDir) with
        | none => lib
        | some rp => { lib with module := rp.module }
    else lib

/-- The libraries emitted for one bucket: the empty license key emits one
single-member library per package; a non-empty key emits one library
with the insertion-ordered member paths, the module of the first member
that has one, and the vendoring fixup applied. -/
def libsOfBucket (rootPkgs : List Package) (key : String) (ps : List Package) : List Library :=
  if key = "" then ps.map (fun p => ⟨"", [p.pkgPath], p.module⟩)
  else [fixVendoredModule rootPkgs ⟨key, ps.map Package.pkgPath, firstModule ps⟩]

/-- The in-place mutation performed by `Library.Name` on the member
slice: `commonAncestor` sorts a slice of two or more paths before
scanning it. -/
def nameEffect (l : Library) : Library :=
  if 2 ≤ l.packages.length then { l with packages := sortStrings l.packages } else l

/-- The name comparison of the final `sort.Slice`: a run of the
non-stable sort leaves the slice pairwise ordered by this relation (the
negation of the strict less function handed to sort.Slice). -/
def nameLe (a b : Library) : Prop := strLe a.Name b.Name

instance : DecidableRel nameLe := fun a b => inferInstanceAs (Decidable (strLe _ _))

/-- Canonical final sorting: a stable sort by name.  Each element has
been compared (hence had `Name` evaluated on it) at least once whenever
there are two or more libraries, which is what `nameEffect` records. -/
def sortByName (libs : List Library) : List Library :=
  List.insertionSort nameLe libs

/-- The bucket-independent first phase of `Libraries`: traversal plus the
two aborting error checks, yielding the insertion-ordered record list on
success. -/
def phase1 (inp : Input) : Except LibErr (List (String × Package)) :=
  let st := traverse inp
  if st.pkgErr then .error .packagesError
  else if st.otherErr then .error .otherError
  else .ok st.recorded

/-- The library list built from an iteration order of the buckets. -/
def bucketLibs (rootPkgs : List Package) (bs : List (String × List Package)) : List Library :=
  bs.flatMap (fun kp => libsOfBucket rootPkgs kp.1 kp.2)

/-- The canonical run of `Libraries`: buckets in first-insertion order,
stable final sort, member slices sorted by the `Name` side effect when
two or more libraries are compared. -/
def LibrariesModel (inp : Input) : Except LibErr (List Library) :=
  match phase1 inp with
  | .error e => .error e
  | .ok recorded =>
    if (bucketLibs (rootPackages inp) (buckets recorded)).length ≤ 1
    then .ok (bucketLibs (rootPackages inp) (buckets recorded))
    else .ok ((sortByName (bucketLibs (rootPackages inp) (buckets recorded))).map nameEffect)

/-- All outputs one run of the Go code may produce for the given bucket
iteration order: when at most one library exists no comparison happens
and the list is returned as built; otherwise any permutation that is
pairwise sorted by name is a possible result of the non-stable
`sort.Slice`, with every member slice sorted by the `Name` side
effect. -/
def validFinal (rootPkgs : List Package) (bs : List (String × List Package))
    (out : Except LibErr (List Library)) : Prop :=
  if (bucketLibs rootPkgs bs).length ≤ 1 then out = .ok (bucketLibs rootPkgs bs)
  else
    ∃ res, List.Perm res ((bucketLibs rootPkgs bs).map nameEffect) ∧
      List.Sorted nameLe res ∧ out = .ok res

/-- All outputs one run of the Go code may produce: the aborting cases
are deterministic; otherwise the buckets are iterated in an arbitrary
order (Go map iteration) and the final list is any valid result of the
non-stable sort. -/
def ValidOutcome (inp : Input) (out : Except LibErr (List Library)) : Prop :=
  match phase1 inp with
  | .error e => out = .error e
  | .ok recorded =>
    ∃ bs, List.Perm bs (buckets recorded) ∧ validFinal (rootPackages inp) bs out

/-! ## Source URL resolver (`library.go` lines 235-285) -/

/-- Modelled from the spec: the source-host descriptor returned by the
external `ModuleInfo` collaborator
(`internal/third_party/pkgsite/source`, not part of the scanned
sources).  It carries a commit reference, `SetCommit` replaces it, and
`FileURL` builds the browsable URL from the commit reference and a
relative path. -/
structure Remote where
  commit : String
  urlTemplate : String → String → String

/-- SetCommit on the descriptor. -/
def Remote.setCommit (r : Remote) (c : String) : Remote := { r with commit := c }

/-- FileURL on the descriptor: the URL built from the current commit
reference and the relative path. -/
def Remote.fileURL (r : Remote) (rel : String) : String := r.urlTemplate r.commit rel

/-- Library.FileURL: fails without module or without module directory,
queries the source-host collaborator, forces the symbolic default-branch
commit when the version is empty, and resolves the file relative to the
module directory. -/
def FileURL (moduleInfo : String → String → Except String Remote)
    (l : Library) (filePath : String) : Except String String :=
  match l.module with
  | none => .error "getting file URL: empty go module info"
  | some m =>
    if m.dir = "" then .error "getting file URL: empty go module dir"
    else
      match moduleInfo m.path m.version with
      | .error e => .error e
      | .ok remote =>
        let remote' := if m.version = "" then remote.setCommit "HEAD" else remote
        match filepathRel m.dir filePath with
        | .error e => .error e
        | .ok rel => .ok (remote'.fileURL rel)

/-! ## Lemmas about the name scan -/

theorem strMk_data (s : String) : String.mk s.data = s := rfl

theorem commonChars_pref : ∀ as bs : List Char, commonChars as bs <+: as
  | a :: as, b :: bs => by
    by_cases h : a = b
    · obtain ⟨t, ht⟩ := commonChars_pref as bs
      exact ⟨t, by simp [commonChars, h, ht]⟩
    · exact ⟨a :: as, by simp [commonChars, h]⟩
  | [], bs => by simp [commonChars]
  | a :: as, [] => ⟨a :: as, by simp [commonChars]⟩

theorem commonChars_eq_left_of_pref : ∀ as bs : List Char, as <+: bs → commonChars as bs = as
  | [], bs, _ => by cases bs <;> simp [commonChars]
  | a :: as, bs, h => by
    obtain ⟨t, ht⟩ := h
    subst ht
    show commonChars (a :: as) (a :: (as ++ t)) = a :: as
    rw [show commonChars (a :: as) (a :: (as ++ t)) = a :: commonChars as (as ++ t) by
          simp [commonChars]]
    rw [commonChars_eq_left_of_pref as (as ++ t) ⟨t, rfl⟩]

theorem lastSlashIdx_lt : ∀ p : List Char, ∀ j, lastSlashIdx p = some j → j < p.length := by
  intro p
  induction p with
  | nil => intro j h; simp [lastSlashIdx] at h
  | cons c cs ih =>
    intro j h
    simp only [lastSlashIdx] at h
    cases hcs : lastSlashIdx cs with
    | some j' =>
      rw [hcs] at h
      cases h
      exact Nat.succ_lt_succ (ih j' hcs)
    | none =>
      rw [hcs] at h
      by_cases hc : c = '/'
      · rw [if_pos hc] at h
        injection h with h
        rw [← h, List.length_cons]
        exact Nat.succ_pos _
      · simp [hc] at h

/-- The index loop of `commonAncestor`, characterised by the common
character run: it returns `none` exactly when one list is exhausted
without mismatch, and otherwise the absolute index of the last separator
inside the common run (the accumulator when the run has none). -/
theorem caScan_eq : ∀ (as bs : List Char) (ls i : Nat),
    caScan as bs ls i =
      if (commonChars as bs).length = min as.length bs.length then none
      else some (match lastSlashIdx (commonChars as bs) with
                 | some j => i + j
                 | none => ls) := by
  intro as
  induction as with
  | nil => intro bs ls i; simp [caScan, commonChars]
  | cons a as ih =>
    intro bs ls i
    cases bs with
    | nil => simp [caScan, commonChars]
    | cons b bs =>
      by_cases hab : a = b
      · subst hab
        rw [show caScan (a :: as) (a :: bs) ls i
              = caScan as bs (if a = '/' then i else ls) (i + 1) by simp [caScan]]
        rw [ih bs (if a = '/' then i else ls) (i + 1)]
        rw [show commonChars (a :: as) (a :: bs) = a :: commonChars as bs by
              simp [commonChars]]
        simp only [List.length_cons]
        have hmin : min (as.length + 1) (bs.length + 1) = min as.length bs.length + 1 := by
          omega
        simp only [hmin]
        by_cases hlen : (commonChars as bs).length = min as.length bs.length
        · rw [if_pos hlen, if_pos (show (commonChars as bs).length + 1
              = min as.length bs.length + 1 by rw [hlen])]
        · rw [if_neg hlen, if_neg (show ¬ ((commonChars as bs).length + 1
              = min as.length bs.length + 1) by omega)]
          congr 1
          rw [show lastSlashIdx (a :: commonChars as bs)
                = (match lastSlashIdx (commonChars as bs) with
                   | some j => some (j + 1)
                   | none => if a = '/' then some 0 else none) from rfl]
          cases hcc : lastSlashIdx (commonChars as bs) with
          | some j => show i + 1 + j = i + (j + 1); omega
          | none =>
            by_cases hc : a = '/'
            · simp [hc]
            · simp [hc]
      · rw [show caScan (a :: as) (b :: bs) ls i = some ls by simp [caScan, hab]]
        rw [show commonChars (a :: as) (b :: bs) = [] by simp [commonChars, hab]]
        rw [if_neg (by simp; omega)]
        rfl

/-- The body shared by `commonAncestor` (after the scan lemma) and the
spec-modelled name computation, on two arbitrary strings. -/
theorem nameCore (mnS mxS : String) :
    (match caScan mnS.data mxS.data 0 0 with
     | some lastSlash => String.mk (List.take lastSlash mnS.data)
     | none => mnS) =
    (if (commonChars mnS.data mxS.data).length = min mnS.data.length mxS.data.length
     then String.mk mnS.data
     else String.mk ((commonChars mnS.data mxS.data).take
            ((lastSlashIdx (commonChars mnS.data mxS.data)).getD 0))) := by
  rw [caScan_eq]
  by_cases hlen :
      (commonChars mnS.data mxS.data).length = min mnS.data.length mxS.data.length
  · rw [if_pos hlen, if_pos hlen]
  · rw [if_neg hlen, if_neg hlen]
    show String.mk (List.take (match lastSlashIdx (commonChars mnS.data mxS.data) with
          | some j => 0 + j
          | none => 0) mnS.data) = _
    obtain ⟨t, ht⟩ := commonChars_pref mnS.data mxS.data
    revert ht
    generalize hg : commonChars mnS.data mxS.data = cc
    intro ht
    cases hcc : lastSlashIdx cc with
    | some j =>
      have hj := lastSlashIdx_lt _ j hcc
      show String.mk (List.take (0 + j) mnS.data) = String.mk (cc.take j)
      congr 1
      rw [← ht, List.take_append_of_le_length (by omega)]
      simp
    | none =>
      show String.mk (List.take 0 mnS.data) = String.mk (cc.take 0)
      simp

/-- C4 core: for two or more members, `commonAncestor` equals the
spec-modelled longest common path-segment prefix computation. -/
theorem commonAncestor_eq_spec (paths : List String) (h2 : 2 ≤ paths.length) :
    commonAncestor paths = specSegmentName paths := by
  rcases paths with _ | ⟨p1, _ | ⟨p2, rest⟩⟩
  · simp at h2
  · simp at h2
  · show (match caScan ((sortStrings (p1 :: p2 :: rest)).headD "").data
              ((sortStrings (p1 :: p2 :: rest)).getLastD "").data 0 0 with
          | some lastSlash =>
            String.mk (List.take lastSlash ((sortStrings (p1 :: p2 :: rest)).headD "").data)
          | none => (sortStrings (p1 :: p2 :: rest)).headD "") = _
    rw [nameCore]
    rfl

/-- C10 core: when the smallest sorted member is a character prefix of
the largest, `commonAncestor` returns the smallest member verbatim. -/
theorem commonAncestor_of_pref (paths : List String) (h2 : 2 ≤ paths.length)
    (hpre : (((sortStrings paths).headD "").data).isPrefixOf
      (((sortStrings paths).getLastD "").data) = true) :
    commonAncestor paths = (sortStrings paths).headD "" := by
  rcases paths with _ | ⟨p1, _ | ⟨p2, rest⟩⟩
  · simp at h2
  · simp at h2
  · show (match caScan ((sortStrings (p1 :: p2 :: rest)).headD "").data
              ((sortStrings (p1 :: p2 :: rest)).getLastD "").data 0 0 with
          | some lastSlash =>
            String.mk (List.take lastSlash ((sortStrings (p1 :: p2 :: rest)).headD "").data)
          | none => (sortStrings (p1 :: p2 :: rest)).headD "") = _
    rw [nameCore]
    have hp := List.isPrefixOf_iff_prefix.mp hpre
    rw [commonChars_eq_left_of_pref _ _ hp]
    rw [if_pos (by have := hp.length_le; omega)]

/-! ## Claim C4 and claim C10 -/

/-- C4: for every multi-member Library, Name equals the longest common
path-segment prefix computed by sorting the member paths, comparing the
first and last entries character by character, and truncating at the
last separator boundary before the first mismatch; members a/b/c and
a/b/d give name a/b, a single member a/b/c gives a/b/c verbatim, and
members a/bc and a/bd give name a. -/
theorem c4_library_name_spec :
    (∀ l : Library, 2 ≤ l.packages.length → l.Name = specSegmentName l.packages) ∧
    commonAncestor ["a/b/c", "a/b/d"] = "a/b" ∧
    commonAncestor ["a/b/c"] = "a/b/c" ∧
    commonAncestor ["a/bc", "a/bd"] = "a" :=
  ⟨fun l h => commonAncestor_eq_spec l.packages h, by decide, rfl, by decide⟩

/-- Witness for C4 at a concrete two-member library. -/
theorem c4_library_name_spec_witness :
    (⟨"L", ["a/b/c", "a/b/d"], none⟩ : Library).Name
      = specSegmentName ["a/b/c", "a/b/d"] :=
  c4_library_name_spec.1 ⟨"L", ["a/b/c", "a/b/d"], none⟩ (by decide)

/-- C10: whenever, after sorting, the smallest member path is a
character prefix of the largest one, the computed name is the smallest
path verbatim, even when the shared run does not stop at a separator
boundary; in particular members a/bc and a/bcd yield the name a/bc. -/
theorem c10_smallest_returned_verbatim :
    (∀ paths : List String, 2 ≤ paths.length →
      (((sortStrings paths).headD "").data).isPrefixOf
          (((sortStrings paths).getLastD "").data) = true →
      commonAncestor paths = (sortStrings paths).headD "") ∧
    commonAncestor ["a/bc", "a/bcd"] = "a/bc" :=
  ⟨fun paths h2 hpre => commonAncestor_of_pref paths h2 hpre, by decide⟩

/-- Witness for C10 at a concrete member list. -/
theorem c10_smallest_returned_verbatim_witness :
    commonAncestor ["a/bc", "a/bcd"] = (sortStrings ["a/bc", "a/bcd"]).headD "" :=
  c10_smallest_returned_verbatim.1 ["a/bc", "a/bcd"] (by decide) (by decide)

/-! ## Claim C5: the vendoring resolver -/

theorem find?_eq_some_of_split {α : Type} (p : α → Bool) (l1 : List α) (x : α) (l2 : List α)
    (hx : p x = true) (hl1 : ∀ y ∈ l1, p y = false) :
    (l1 ++ x :: l2).find? p = some x := by
  induction l1 with
  | nil => simpa [List.find?_cons] using List.find?_cons_of_pos l2 hx
  | cons y ys ih =>
    have hy : p y = false := hl1 y (by simp)
    rw [List.cons_append, List.find?_cons_of_neg _ (by simp [hy])]
    exact ih (fun z hz => hl1 z (by simp [hz]))

/-- C5: a Library whose module is present with a non-empty path and an
empty directory is reattributed, when its license path contains the
vendor marker, to the module of the first root package whose module
directory equals the part before the marker; when no root package
matches, or the marker does not occur (the license path does not split
into two parts), the Library is left unchanged; the step is a total
function and never fails the run. -/
theorem c5_vendoring_reattribution (rootPkgs : List Package) (lib : Library) (m : GoModule)
    (hm : lib.module = some m) (hp : m.path ≠ "") (hd : m.dir = "") :
    (∀ pre rest, splitVendor lib.licensePath = some (pre, rest) →
      (∀ l1 rp l2, rootPkgs = l1 ++ rp :: l2 → moduleDirIs rp pre = true →
        (∀ rp' ∈ l1, moduleDirIs rp' pre = false) →
        fixVendoredModule rootPkgs lib = { lib with module := rp.module }) ∧
      ((∀ rp ∈ rootPkgs, moduleDirIs rp pre = false) →
        fixVendoredModule rootPkgs lib = lib)) ∧
    (splitVendor lib.licensePath = none → fixVendoredModule rootPkgs lib = lib) := by
  rcases lib with ⟨lp, pk, lmod⟩
  simp only at hm
  subst hm
  constructor
  · intro pre rest hsplit
    constructor
    · intro l1 rp l2 hsp hrp hl1
      subst hsp
      show (if m.path ≠ "" ∧ m.dir = "" then _ else _) = _
      rw [if_pos ⟨hp, hd⟩, hsplit]
      show (match (l1 ++ rp :: l2).find? (fun rp => moduleDirIs rp pre) with
            | none => _
            | some rp => _) = _
      rw [find?_eq_some_of_split _ l1 rp l2 hrp hl1]
    · intro hnone
      show (if m.path ≠ "" ∧ m.dir = "" then _ else _) = _
      rw [if_pos ⟨hp, hd⟩, hsplit]
      show (match rootPkgs.find? (fun rp => moduleDirIs rp pre) with
            | none => _
            | some rp => _) = _
      rw [List.find?_eq_none.mpr (fun x hx => by simp [hnone x hx])]
  · intro hnone
    show (if m.path ≠ "" ∧ m.dir = "" then _ else _) = _
    rw [if_pos ⟨hp, hd⟩, hnone]

def exVendLib : Library := ⟨"/parent/vendor/sub/LICENSE", ["sub/a"], some ⟨"sub", "", ""⟩⟩

def exVendRoot : Package :=
  ⟨"par", "par", ["/parent/f.go"], [], [], some ⟨"parent", "v1", "/parent"⟩, 0, []⟩

/-- Witness for C5: a concrete vendored library is reattributed to the
matching root package's module. -/
theorem c5_vendoring_reattribution_witness :
    fixVendoredModule [exVendRoot] exVendLib
      = { exVendLib with module := exVendRoot.module } :=
  ((c5_vendoring_reattribution [exVendRoot] exVendLib ⟨"sub", "", ""⟩ rfl (by decide) rfl).1
    "/parent" "sub/LICENSE" (by decide)).1 [] exVendRoot [] rfl (by decide)
    (by intro rp hrp; simp at hrp)

/-! ## Claim C9: empty module version forces the symbolic HEAD commit -/

/-- C9: for a Library whose module is present with a non-empty directory
and an empty version, FileURL does not fail because of the missing
version: the remote descriptor's commit is forced to the symbolic HEAD
marker and a well-formed URL is still returned, built from the file's
path relative to the module directory. -/
theorem c9_empty_version_head (mi : String → String → Except String Remote)
    (l : Library) (m : GoModule) (f : String) (r : Remote) (rel : String)
    (hm : l.module = some m) (hd : m.dir ≠ "") (hv : m.version = "")
    (hmi : mi m.path m.version = .ok r)
    (hrel : filepathRel m.dir f = .ok rel) :
    FileURL mi l f = .ok ((r.setCommit "HEAD").fileURL rel) := by
  rcases l with ⟨lp, pk, lmod⟩
  simp only at hm
  subst hm
  show (if m.dir = "" then _ else _) = _
  rw [if_neg hd]
  show (match mi m.path m.version with
        | .error e => _
        | .ok remote => _) = _
  rw [hmi]
  show (match filepathRel m.dir f with
        | .error e => Except.error e
        | .ok rel => .ok ((if m.version = "" then r.setCommit "HEAD" else r).fileURL rel)) = _
  rw [hrel, if_pos hv]

def exRemote : Remote := ⟨"v1", fun c rel => "https://host/" ++ c ++ "/" ++ rel⟩

def exMiOk : String → String → Except String Remote := fun _ _ => .ok exRemote

def exLibNoVer : Library := ⟨"L", ["a"], some ⟨"mod", "", "/src/m"⟩⟩

/-- Witness for C9 at a concrete library with empty version. -/
theorem c9_empty_version_head_witness :
    FileURL exMiOk exLibNoVer "/src/m/LICENSE"
      = .ok ((exRemote.setCommit "HEAD").fileURL "LICENSE") :=
  c9_empty_version_head exMiOk exLibNoVer ⟨"mod", "", "/src/m"⟩ "/src/m/LICENSE" exRemote
    "LICENSE" rfl (by decide) rfl rfl (by rfl)

/-! ## Traversal lemmas -/

instance exceptDecEq {ε α : Type} [DecidableEq ε] [DecidableEq α] : DecidableEq (Except ε α)
  | .ok x, .ok y =>
    if h : x = y then .isTrue (congrArg Except.ok h)
    else .isFalse (fun hh => h (Except.ok.inj hh))
  | .error e, .error f =>
    if h : e = f then .isTrue (congrArg Except.error h)
    else .isFalse (fun hh => h (Except.error.inj hh))
  | .ok _, .error _ => .isFalse (fun hh => Except.noConfusion hh)
  | .error _, .ok _ => .isFalse (fun hh => Except.noConfusion hh)

theorem findPkg_pkgPath (g : List Package) (path : String) (p : Package)
    (h : findPkg g path = some p) : p.pkgPath = path := by
  have := List.find?_some h
  simpa using this

theorem raisesPkgErr_eq_true_iff (k : StepKind) : raisesPkgErr k = true ↔ k = .cutErr := by
  cases k <;> simp [raisesPkgErr]

theorem classify_pos_err (inp : Input) (p : Package) (he : 0 < p.numErrors) :
    classify inp p = .cutErr := by
  simp [classify, he]

theorem classify_ne_cutErr (inp : Input) (p : Package) (he : ¬ 0 < p.numErrors) :
    classify inp p ≠ .cutErr := by
  simp only [classify, if_neg he]
  split
  · simp
  · split
    · simp
    · split
      · simp
      · split
        · simp
        · split
          · simp
          · simp

theorem raisesPkgErr_classify (inp : Input) (p : Package) :
    raisesPkgErr (classify inp p) = true ↔ 0 < p.numErrors := by
  rw [raisesPkgErr_eq_true_iff]
  constructor
  · intro h
    by_contra he
    exact classify_ne_cutErr inp p he h
  · exact classify_pos_err inp p

theorem visitLoop_visited_mono (inp : Input) : ∀ (fuel : Nat) (st : TravState)
    (stack : List String), ∀ x ∈ st.visited, x ∈ (visitLoop inp fuel st stack).visited := by
  intro fuel
  induction fuel with
  | zero => intro st stack x hx; exact hx
  | succ n ih =>
    intro st stack x hx
    cases stack with
    | nil => exact hx
    | cons path rest =>
      simp only [visitLoop]
      by_cases hv : st.visited.contains path
      · rw [if_pos hv]; exact ih st rest x hx
      · rw [if_neg hv]
        cases hf : findPkg inp.graph path with
        | none => exact ih st rest x hx
        | some p => exact ih _ _ x (by simp [hx])

theorem visitLoop_recorded_mono (inp : Input) : ∀ (fuel : Nat) (st : TravState)
    (stack : List String), ∀ r ∈ st.recorded, r ∈ (visitLoop inp fuel st stack).recorded := by
  intro fuel
  induction fuel with
  | zero => intro st stack r hr; exact hr
  | succ n ih =>
    intro st stack r hr
    cases stack with
    | nil => exact hr
    | cons path rest =>
      simp only [visitLoop]
      by_cases hv : st.visited.contains path
      · rw [if_pos hv]; exact ih st rest r hr
      · rw [if_neg hv]
        cases hf : findPkg inp.graph path with
        | none => exact ih st rest r hr
        | some p => exact ih _ _ r (by simp [hr])

/-- There is a visited package carrying load errors. -/
def ErrWitness (inp : Input) (visited : List String) : Prop :=
  ∃ path ∈ visited, ∃ p, findPkg inp.graph path = some p ∧ 0 < p.numErrors

theorem visitLoop_pkgErr_iff (inp : Input) : ∀ (fuel : Nat) (st : TravState)
    (stack : List String),
    (st.pkgErr = true ↔ ErrWitness inp st.visited) →
    ((visitLoop inp fuel st stack).pkgErr = true
      ↔ ErrWitness inp (visitLoop inp fuel st stack).visited) := by
  intro fuel
  induction fuel with
  | zero => intro st stack h; exact h
  | succ n ih =>
    intro st stack h
    cases stack with
    | nil => exact h
    | cons path rest =>
      simp only [visitLoop]
      by_cases hv : st.visited.contains path
      · rw [if_pos hv]; exact ih st rest h
      · rw [if_neg hv]
        cases hf : findPkg inp.graph path with
        | none => exact ih st rest h
        | some p =>
          apply ih
          show (st.pkgErr || raisesPkgErr (classify inp p)) = true
            ↔ ErrWitness inp (path :: st.visited)
          by_cases he : 0 < p.numErrors
          · have hcl : raisesPkgErr (classify inp p) = true :=
              (raisesPkgErr_classify inp p).mpr he
            rw [hcl, Bool.or_true]
            simp only [true_iff]
            exact ⟨path, by simp, p, hf, he⟩
          · have hcl : raisesPkgErr (classify inp p) = false := by
              cases hx : raisesPkgErr (classify inp p)
              · rfl
              · exact absurd ((raisesPkgErr_classify inp p).mp hx) he
            rw [hcl, Bool.or_false, h]
            constructor
            · intro hw
              obtain ⟨q, hq, pp, hfp, hep⟩ := hw
              exact ⟨q, by simp [hq], pp, hfp, hep⟩
            · intro hw
              obtain ⟨q, hq, pp, hfp, hep⟩ := hw
              rcases List.mem_cons.mp hq with rfl | hq'
              · rw [hf] at hfp
                cases hfp
                exact absurd hep he
              · exact ⟨q, hq', pp, hfp, hep⟩

theorem traverse_pkgErr_iff (inp : Input) :
    (traverse inp).pkgErr = true ↔ ErrWitness inp (traverse inp).visited := by
  apply visitLoop_pkgErr_iff
  simp [ErrWitness]

/-! ## Claim C3: load errors and aborting -/

/-- C3 (amended): whenever a package visited by the pruned traversal
carries load errors, Libraries aborts with the aggregate PackagesError
value and returns no library list at all. -/
theorem c3_visited_error_aborts (inp : Input)
    (h : ErrWitness inp (traverse inp).visited) :
    LibrariesModel inp = .error .packagesError := by
  have hpe : (traverse inp).pkgErr = true := (traverse_pkgErr_iff inp).mpr h
  simp only [LibrariesModel, phase1, hpe]
  rfl

def exHiddenErrInput : Input :=
  { goroot := "/goroot"
    includeTests := false
    ignoredPaths := []
    find := fun _ _ => "L"
    graph := [⟨"u", "unsafe", [], [], [], none, 0, ["e"]⟩,
              ⟨"e", "e", ["/m/e/f.go"], [], [], some ⟨"m", "v1", "/m"⟩, 1, []⟩]
    roots := ["u"] }

/-- C3 counterexample: in this loaded graph the package e carries a load
error and is reachable (it is imported by the root), yet Libraries
succeeds with an empty list, because the traversal never visits below
the standard-library cut; so an errored package anywhere in the loaded
graph does not abort the run. -/
theorem c3_counterexample :
    (∃ p ∈ exHiddenErrInput.graph, 0 < p.numErrors) ∧
    (∃ p ∈ exHiddenErrInput.graph, "e" ∈ p.imports) ∧
    LibrariesModel exHiddenErrInput = .ok [] := by
  refine ⟨⟨⟨"e", "e", ["/m/e/f.go"], [], [], some ⟨"m", "v1", "/m"⟩, 1, []⟩, by decide, by decide⟩,
    ⟨⟨"u", "unsafe", [], [], [], none, 0, ["e"]⟩, by decide, by decide⟩, by decide⟩

def exErrRootInput : Input :=
  { goroot := "/goroot"
    includeTests := false
    ignoredPaths := []
    find := fun _ _ => "L"
    graph := [⟨"r", "r", [], [], [], none, 1, []⟩]
    roots := ["r"] }

/-- Witness for the amended C3 at a concrete graph whose root package
carries a load error. -/
theorem c3_visited_error_aborts_witness :
    LibrariesModel exErrRootInput = .error .packagesError :=
  c3_visited_error_aborts exErrRootInput
    ⟨"r", by decide, ⟨"r", "r", [], [], [], none, 1, []⟩, by decide, by decide⟩

/-! ## Recorded-entries invariant -/

/-- Soundness of the record list: every entry was produced by the record
branch of the pre callback for a package resolvable under its own import
path, that path has been seen, and no import path is recorded twice. -/
def RecordedOk (inp : Input) (st : TravState) : Prop :=
  (∀ r ∈ st.recorded, findPkg inp.graph r.2.pkgPath = some r.2 ∧
    classify inp r.2 = .record r.1 ∧ r.2.pkgPath ∈ st.visited) ∧
  (st.recorded.map (fun r => r.2.pkgPath)).Nodup

theorem visitLoop_recorded_ok (inp : Input) : ∀ (fuel : Nat) (st : TravState)
    (stack : List String),
    RecordedOk inp st → RecordedOk inp (visitLoop inp fuel st stack) := by
  intro fuel
  induction fuel with
  | zero => intro st stack h; exact h
  | succ n ih =>
    intro st stack h
    cases stack with
    | nil => exact h
    | cons path rest =>
      simp only [visitLoop]
      by_cases hv : st.visited.contains path
      · rw [if_pos hv]; exact ih st rest h
      · rw [if_neg hv]
        cases hf : findPkg inp.graph path with
        | none => exact ih st rest h
        | some p =>
          apply ih
          obtain ⟨hsound, hnd⟩ := h
          have hpp : p.pkgPath = path := findPkg_pkgPath inp.graph path p hf
          constructor
          · intro r hr
            simp only [List.mem_append] at hr
            rcases hr with hold | hnew
            · obtain ⟨h1, h2, h3⟩ := hsound r hold
              exact ⟨h1, h2, by simp [h3]⟩
            · cases hk : classify inp p with
              | record lic =>
                rw [hk] at hnew
                simp only [recordOf, List.mem_singleton] at hnew
                subst hnew
                exact ⟨by simpa [hpp] using hf, by simpa using hk, by simp [hpp]⟩
              | cutErr => rw [hk] at hnew; simp [recordOf] at hnew
              | cutStd => rw [hk] at hnew; simp [recordOf] at hnew
              | cutTest => rw [hk] at hnew; simp [recordOf] at hnew
              | descendIgnored => rw [hk] at hnew; simp [recordOf] at hnew
              | descendEmpty => rw [hk] at hnew; simp [recordOf] at hnew
              | cutNoModule => rw [hk] at hnew; simp [recordOf] at hnew
          · rw [List.map_append]
            apply List.Nodup.append hnd
            · cases hk : classify inp p <;> simp [recordOf]
            · intro a ha hb
              cases hk : classify inp p <;> rw [hk] at hb <;> simp [recordOf] at hb
              subst hb
              obtain ⟨r, hr, hrp⟩ := List.mem_map.mp ha
              have h3 := (hsound r hr).2.2
              rw [hrp, hpp] at h3
              exact hv (by simpa using h3)


/-! ## Fuel sufficiency for the worklist loop -/

theorem sum_filter_le_sum_filter {α : Type} (f : α → Nat) (p q : α → Bool)
    (hpq : ∀ a, p a = true → q a = true) :
    ∀ l : List α, ((l.filter p).map f).sum ≤ ((l.filter q).map f).sum := by
  intro l
  induction l with
  | nil => simp
  | cons x xs ih =>
    by_cases hx : p x = true
    · rw [List.filter_cons_of_pos hx, List.filter_cons_of_pos (hpq x hx)]
      simp only [List.map_cons, List.sum_cons]
      omega
    · rw [List.filter_cons_of_neg (by simpa using hx)]
      by_cases hq : q x = true
      · rw [List.filter_cons_of_pos hq]
        simp only [List.map_cons, List.sum_cons]
        omega
      · rw [List.filter_cons_of_neg (by simpa using hq)]
        exact ih

theorem potential_cons_le (inp : Input) (path : String) (visited : List String) :
    potential inp (path :: visited) ≤ potential inp visited := by
  apply sum_filter_le_sum_filter
  intro a ha
  simp only [Bool.not_eq_true', List.contains_cons] at ha ⊢
  simp only [Bool.or_eq_false_iff] at ha
  exact ha.2

theorem potential_visit (inp : Input) (visited : List String) (path : String) (p : Package)
    (hvp : visited.contains path = false) (hf : findPkg inp.graph path = some p) :
    potential inp (path :: visited) + p.imports.length ≤ potential inp visited := by
  have hgen : ∀ g : List Package, g.find? (fun q => q.pkgPath = path) = some p →
      (((g.filter (fun q => ! (path :: visited).contains q.pkgPath)).map
          (fun q => q.imports.length)).sum + p.imports.length
        ≤ ((g.filter (fun q => ! visited.contains q.pkgPath)).map
          (fun q => q.imports.length)).sum) := by
    intro g
    induction g with
    | nil => intro h; simp [List.find?] at h
    | cons x xs ih =>
      intro h
      by_cases hx : x.pkgPath = path
      · have hpx : p = x := by
          rw [List.find?_cons_of_pos _ (by simp [hx])] at h
          cases h
          rfl
        subst hpx
        rw [List.filter_cons_of_neg (by simp [List.contains_cons, hx]),
          List.filter_cons_of_pos (by
            simp only [hx, Bool.not_eq_true']
            exact hvp)]
        simp only [List.map_cons, List.sum_cons]
        have hm := sum_filter_le_sum_filter (fun q => q.imports.length)
          (fun q => ! (path :: visited).contains q.pkgPath)
          (fun q => ! visited.contains q.pkgPath)
          (by
            intro a ha
            simp only [Bool.not_eq_true', List.contains_cons, Bool.or_eq_false_iff] at ha ⊢
            exact ha.2) xs
        omega
      · rw [List.find?_cons_of_neg _ (by simp [hx])] at h
        have hbeq : (x.pkgPath == path) = false := by
          simp only [beq_eq_false_iff_ne, ne_eq]
          exact hx
        have hcc : ((path :: visited).contains x.pkgPath) = (visited.contains x.pkgPath) := by
          rw [List.contains_cons, hbeq, Bool.false_or]
        by_cases hvx : visited.contains x.pkgPath = true
        · rw [List.filter_cons_of_neg (by rw [hcc, hvx]; simp),
            List.filter_cons_of_neg (by rw [hvx]; simp)]
          exact ih h
        · have hvxf : visited.contains x.pkgPath = false := by simpa using hvx
          rw [List.filter_cons_of_pos (by rw [hcc, hvxf]; simp),
            List.filter_cons_of_pos (by rw [hvxf]; simp)]
          simp only [List.map_cons, List.sum_cons]
          have := ih h
          omega
  exact hgen inp.graph hf

theorem sortStrings_length (l : List String) : (sortStrings l).length = l.length :=
  (sortStrings_perm l).length_eq

theorem mem_sortStrings (l : List String) (x : String) :
    x ∈ sortStrings l ↔ x ∈ l :=
  (sortStrings_perm l).mem_iff

/-- An import path that resolves to a package of the loaded graph. -/
def Resolvable (inp : Input) (q : String) : Prop := ∃ pq, findPkg inp.graph q = some pq

/-- Steps the loop may still take: one per stack entry plus one
per import edge of a not-yet-visited package. -/
def stepBound (inp : Input) (st : TravState) (stack : List String) : Nat :=
  stack.length + potential inp st.visited

/-- With fuel at least `stepBound`, the loop empties its worklist: every
resolvable stacked path ends up visited, and every freshly visited
package whose pre decision descends has all its resolvable imports
visited. -/
theorem visitLoop_complete (inp : Input) : ∀ (fuel : Nat) (st : TravState)
    (stack : List String), stepBound inp st stack ≤ fuel →
    (∀ q ∈ stack, Resolvable inp q → q ∈ (visitLoop inp fuel st stack).visited) ∧
    (∀ path p, path ∉ st.visited → path ∈ (visitLoop inp fuel st stack).visited →
      findPkg inp.graph path = some p → descends (classify inp p) = true →
      ∀ q ∈ p.imports, Resolvable inp q → q ∈ (visitLoop inp fuel st stack).visited) := by
  intro fuel
  induction fuel with
  | zero =>
    intro st stack hb
    have hstack : stack = [] := by
      have hh := hb
      simp only [stepBound] at hh
      have : stack.length = 0 := by omega
      exact List.length_eq_zero.mp this
    subst hstack
    constructor
    · intro q hq; simp at hq
    · intro path p hnv hv
      exact absurd hv hnv
  | succ n ih =>
    intro st stack hb
    cases stack with
    | nil =>
      constructor
      · intro q hq; simp at hq
      · intro path p hnv hv
        exact absurd hv hnv
    | cons path rest =>
      simp only [visitLoop]
      by_cases hv : st.visited.contains path
      · rw [if_pos hv]
        have hb' : stepBound inp st rest ≤ n := by
          simp only [stepBound, List.length_cons] at hb ⊢
          omega
        obtain ⟨ih1, ih2⟩ := ih st rest hb'
        constructor
        · intro q hq hr
          rcases List.mem_cons.mp hq with rfl | hq'
          · exact visitLoop_visited_mono inp n st rest q (by simpa using hv)
          · exact ih1 q hq' hr
        · exact ih2
      · rw [if_neg hv]
        cases hf : findPkg inp.graph path with
        | none =>
          have hb' : stepBound inp st rest ≤ n := by
            simp only [stepBound, List.length_cons] at hb ⊢
            omega
          obtain ⟨ih1, ih2⟩ := ih st rest hb'
          constructor
          · intro q hq hr
            rcases List.mem_cons.mp hq with rfl | hq'
            · obtain ⟨pq, hpq⟩ := hr
              rw [hf] at hpq
              cases hpq
            · exact ih1 q hq' hr
          · exact ih2
        | some p =>
          have hvf : st.visited.contains path = false := by simpa using hv
          have hpot := potential_visit inp st.visited path p hvf hf
          have hchild : (if descends (classify inp p) = true then sortStrings p.imports
              else []).length ≤ p.imports.length := by
            by_cases hd : descends (classify inp p) = true
            · rw [if_pos hd, sortStrings_length]
            · rw [if_neg hd]; simp
          have hb' : stepBound inp
              { visited := path :: st.visited
                pkgErr := st.pkgErr || raisesPkgErr (classify inp p)
                otherErr := st.otherErr || raisesOtherErr (classify inp p)
                recorded := st.recorded ++ recordOf (classify inp p) p }
              ((if descends (classify inp p) = true then sortStrings p.imports else []) ++ rest)
              ≤ n := by
            simp only [stepBound, List.length_append, List.length_cons] at hb ⊢
            omega
          obtain ⟨ih1, ih2⟩ := ih _ _ hb'
          constructor
          · intro q hq hr
            rcases List.mem_cons.mp hq with rfl | hq'
            · apply visitLoop_visited_mono
              simp
            · exact ih1 q (by simp [hq']) hr
          · intro path' p' hnv' hv' hf' hd'
            by_cases hpp : path' = path
            · subst hpp
              rw [hf] at hf'
              cases hf'
              intro q hq hr
              apply ih1 q _ hr
              rw [if_pos hd']
              simp [mem_sortStrings, hq]
            · intro q hq hr
              apply ih2 path' p' (by simp [hnv', hpp]) hv' hf' hd' q hq hr

theorem traverse_recorded_ok (inp : Input) : RecordedOk inp (traverse inp) := by
  apply visitLoop_recorded_ok
  constructor
  · intro r hr; simp at hr
  · simp

theorem traverse_descends_imports (inp : Input) (path : String) (p : Package)
    (hvis : path ∈ (traverse inp).visited)
    (hf : findPkg inp.graph path = some p)
    (hd : descends (classify inp p) = true) :
    ∀ q ∈ p.imports, Resolvable inp q → q ∈ (traverse inp).visited := by
  have hb : stepBound inp ⟨[], false, false, []⟩ inp.roots ≤ fuelFor inp := by
    simp [stepBound, fuelFor]
  have hc := (visitLoop_complete inp (fuelFor inp) ⟨[], false, false, []⟩ inp.roots hb).2
  exact hc path p (by simp) hvis hf hd

/-! ## Claim C6: ignore prefixes -/

theorem classify_ignored (inp : Input) (p : Package)
    (he : ¬ 0 < p.numErrors) (hstd : isStdLib inp.goroot p = false)
    (htest : (inp.includeTests && isTestBinary p) = false)
    (hpref : inp.ignoredPaths.any (fun i => hasPrefixB p.pkgPath i) = true) :
    classify inp p = .descendIgnored := by
  simp [classify, he, hstd, htest, hpref]

/-- C6 (amended): a visited package whose import path matches one of the
configured ignore prefixes (and which passed the earlier load-error,
standard-library and test-binary checks) is NOT recorded as a member of
any library, while the traversal still descends into its imports:
every import that resolves in the loaded graph is itself visited. -/
theorem c6_ignored_skipped_but_descended (inp : Input) (path : String) (p : Package)
    (hf : findPkg inp.graph path = some p)
    (hvis : path ∈ (traverse inp).visited)
    (he : ¬ 0 < p.numErrors) (hstd : isStdLib inp.goroot p = false)
    (htest : (inp.includeTests && isTestBinary p) = false)
    (hpref : inp.ignoredPaths.any (fun i => hasPrefixB p.pkgPath i) = true) :
    (∀ r ∈ (traverse inp).recorded, r.2.pkgPath ≠ path) ∧
    (∀ q ∈ p.imports, Resolvable inp q → q ∈ (traverse inp).visited) := by
  have hcl := classify_ignored inp p he hstd htest hpref
  constructor
  · intro r hr hrp
    obtain ⟨hsound, _⟩ := traverse_recorded_ok inp
    obtain ⟨h1, h2, _⟩ := hsound r hr
    rw [hrp, hf] at h1
    have hpr : p = r.2 := by injection h1
    rw [← hpr, hcl] at h2
    cases h2
  · exact traverse_descends_imports inp path p hvis hf (by rw [hcl]; rfl)

def exIgnoredPkg : Package :=
  ⟨"ig/p", "p", ["/m/ig/f.go"], [], [], some ⟨"m", "v1", "/m"⟩, 0, ["d"]⟩

def exIgnoredInput : Input :=
  { goroot := "/goroot"
    includeTests := false
    ignoredPaths := ["ig"]
    find := fun d _ => if d = "/m/r" then "LR" else "LD"
    graph := [⟨"r", "r", ["/m/r/f.go"], [], [], some ⟨"m", "v1", "/m"⟩, 0, ["ig/p"]⟩,
              exIgnoredPkg,
              ⟨"d", "d", ["/m/d/f.go"], [], [], some ⟨"m", "v1", "/m"⟩, 0, []⟩]
    roots := ["r"] }

/-- C6 counterexample: in this run the package ig/p matches the ignore
prefix ig, yet it appears in NO library of the output (the claim says an
ignored package is still recorded as a member), while its import d IS
analyzed further and ends up in a library of its own (the claim says the
ignored package's imports are not analyzed). -/
theorem c6_counterexample :
    hasPrefixB "ig/p" "ig" = true ∧
    LibrariesModel exIgnoredInput = .ok
      [⟨"LD", ["d"], some ⟨"m", "v1", "/m"⟩⟩, ⟨"LR", ["r"], some ⟨"m", "v1", "/m"⟩⟩] ∧
    (∀ l ∈ [(⟨"LD", ["d"], some ⟨"m", "v1", "/m"⟩⟩ : Library),
            ⟨"LR", ["r"], some ⟨"m", "v1", "/m"⟩⟩], "ig/p" ∉ l.packages) ∧
    (∃ l ∈ [(⟨"LD", ["d"], some ⟨"m", "v1", "/m"⟩⟩ : Library),
            ⟨"LR", ["r"], some ⟨"m", "v1", "/m"⟩⟩], "d" ∈ l.packages) := by
  decide

/-- Witness for the amended C6 at the same concrete graph. -/
theorem c6_ignored_skipped_but_descended_witness :
    (∀ r ∈ (traverse exIgnoredInput).recorded, r.2.pkgPath ≠ "ig/p") ∧
    (∀ q ∈ exIgnoredPkg.imports, Resolvable exIgnoredInput q →
      q ∈ (traverse exIgnoredInput).visited) :=
  c6_ignored_skipped_but_descended exIgnoredInput "ig/p" exIgnoredPkg (by decide) (by decide)
    (by decide) (by decide) (by decide) (by decide)

/-! ## Group-by lemmas for the license buckets -/

/-- Filter-style specification of first-occurrence deduplication (used
only in proofs; the executable `dedupFirst` uses an accumulator). -/
def dedupF : List String → List String
  | [] => []
  | k :: ks => k :: dedupF (ks.filter (fun x => x ≠ k))
termination_by l => l.length
decreasing_by
  simp only [List.length_cons]
  exact Nat.lt_succ_of_le (List.length_filter_le _ _)

theorem filter_notc_cons (k : String) (seen : List String) : ∀ ks : List String,
    ks.filter (fun x => ! (k :: seen).contains x)
      = (ks.filter (fun x => ! seen.contains x)).filter (fun y => y ≠ k) := by
  intro ks
  induction ks with
  | nil => rfl
  | cons a as ih =>
    by_cases hak : a = k
    · subst hak
      rw [List.filter_cons_of_neg (by simp [List.contains_cons])]
      by_cases hs : seen.contains a
      · rw [List.filter_cons_of_neg (by rw [hs]; simp)]
        exact ih
      · rw [List.filter_cons_of_pos (by simpa using hs),
          List.filter_cons_of_neg (by simp)]
        exact ih
    · by_cases hs : seen.contains a
      · rw [List.filter_cons_of_neg (by rw [List.contains_cons, hs]; simp),
          List.filter_cons_of_neg (by rw [hs]; simp)]
        exact ih
      · have hsf : seen.contains a = false := by simpa using hs
        have hbeq : (a == k) = false := by simpa using hak
        rw [List.filter_cons_of_pos (by rw [List.contains_cons, hbeq, hsf]; rfl),
          List.filter_cons_of_pos (by simpa using hs),
          List.filter_cons_of_pos (by simp [hak])]
        rw [ih]

theorem dedupFirstAux_eq : ∀ (l : List String) (seen : List String),
    dedupFirstAux seen l = dedupF (l.filter (fun k => ! seen.contains k)) := by
  intro l
  induction l with
  | nil =>
    intro seen
    rw [List.filter_nil]
    rw [show dedupF [] = [] from by rw [dedupF]]
    rfl
  | cons k ks ih =>
    intro seen
    by_cases hk : seen.contains k = true
    · rw [show dedupFirstAux seen (k :: ks) = dedupFirstAux seen ks from by
        rw [dedupFirstAux, if_pos hk]]
      rw [List.filter_cons_of_neg (by rw [hk]; simp)]
      exact ih seen
    · rw [show dedupFirstAux seen (k :: ks) = k :: dedupFirstAux (k :: seen) ks from by
        rw [dedupFirstAux, if_neg hk]]
      rw [List.filter_cons_of_pos (by simpa using hk)]
      rw [dedupF]
      rw [ih (k :: seen)]
      rw [filter_notc_cons]

theorem mem_dedupF_aux : ∀ (n : Nat) (l : List String), l.length ≤ n →
    ∀ x ∈ dedupF l, x ∈ l := by
  intro n
  induction n with
  | zero =>
    intro l hl x hx
    cases l with
    | nil => simpa [dedupF] using hx
    | cons a as => simp at hl
  | succ m ih =>
    intro l hl x hx
    cases l with
    | nil => simpa [dedupF] using hx
    | cons k ks =>
      rw [show dedupF (k :: ks) = k :: dedupF (ks.filter (fun y => y ≠ k)) from by
        rw [dedupF]] at hx
      rcases List.mem_cons.mp hx with rfl | hx'
      · exact List.mem_cons_self _ _
      · have hlen : (ks.filter (fun y => y ≠ k)).length ≤ m := by
          have hle := List.length_filter_le (fun y => decide (y ≠ k)) ks
          simp only [List.length_cons] at hl
          omega
        exact List.mem_cons_of_mem _ (List.mem_of_mem_filter (ih _ hlen x hx'))

theorem flatMap_congr {α β : Type} : ∀ (l : List α) (f g : α → List β),
    (∀ a ∈ l, f a = g a) → l.flatMap f = l.flatMap g := by
  intro l f g h
  induction l with
  | nil => rfl
  | cons x xs ih =>
    simp only [List.flatMap_cons]
    rw [h x (by simp), ih (fun a ha => h a (by simp [ha]))]

theorem filter_eq_key_of_ne {β : Type} (k j : String) (hkj : k ≠ j) :
    ∀ R : List (String × β),
    (R.filter (fun x => x.1 ≠ j)).filter (fun rr => rr.1 = k)
      = R.filter (fun rr => rr.1 = k) := by
  intro R
  induction R with
  | nil => rfl
  | cons a as ih =>
    by_cases hak : a.1 = k
    · have haj : a.1 ≠ j := by rw [hak]; exact hkj
      rw [List.filter_cons_of_pos (by simp [haj]), List.filter_cons_of_pos (by simp [hak]),
        List.filter_cons_of_pos (by simp [hak])]
      rw [ih]
    · by_cases haj : a.1 = j
      · rw [List.filter_cons_of_neg (by simp [haj]), List.filter_cons_of_neg (by simp [hak])]
        exact ih
      · rw [List.filter_cons_of_pos (by simp [haj]), List.filter_cons_of_neg (by simp [hak]),
          List.filter_cons_of_neg (by simp [hak])]
        exact ih

theorem map_fst_filter_ne {β : Type} (j : String) : ∀ (R : List (String × β)),
    (R.map Prod.fst).filter (fun y => y ≠ j) = (R.filter (fun x => x.1 ≠ j)).map Prod.fst := by
  intro R
  induction R with
  | nil => rfl
  | cons a as ih =>
    by_cases ha : a.1 = j
    · rw [List.map_cons, List.filter_cons_of_neg (by simp [ha]),
        List.filter_cons_of_neg (by simp [ha])]
      exact ih
    · rw [List.map_cons, List.filter_cons_of_pos (by simp [ha]),
        List.filter_cons_of_pos (by simp [ha]), List.map_cons]
      rw [ih]

theorem dedupF_flatMap_perm_aux {β : Type} : ∀ (n : Nat) (R : List (String × β)),
    R.length ≤ n →
    List.Perm ((dedupF (R.map Prod.fst)).flatMap
      (fun k => (R.filter (fun r => r.1 = k)).map Prod.snd)) (R.map Prod.snd) := by
  intro n
  induction n with
  | zero =>
    intro R hR
    have hnil : R = [] := List.length_eq_zero.mp (by omega)
    subst hnil
    simp [dedupF]
  | succ m ih =>
    intro R hR
    cases R with
    | nil => simp [dedupF]
    | cons r R' =>
      rw [List.map_cons]
      rw [show dedupF (r.1 :: R'.map Prod.fst)
            = r.1 :: dedupF ((R'.map Prod.fst).filter (fun y => y ≠ r.1)) from by
        rw [dedupF]]
      rw [List.flatMap_cons]
      rw [List.filter_cons_of_pos (by simp)]
      rw [map_fst_filter_ne r.1 R']
      have hcong := flatMap_congr (dedupF ((R'.filter (fun x => x.1 ≠ r.1)).map Prod.fst))
        (fun k => ((r :: R').filter (fun rr => rr.1 = k)).map Prod.snd)
        (fun k => ((R'.filter (fun x => x.1 ≠ r.1)).filter (fun rr => rr.1 = k)).map Prod.snd)
        (by
          intro k hk
          show ((r :: R').filter (fun rr => rr.1 = k)).map Prod.snd
            = ((R'.filter (fun x => x.1 ≠ r.1)).filter (fun rr => rr.1 = k)).map Prod.snd
          have hkne : k ≠ r.1 := by
            have hmem := mem_dedupF_aux ((R'.filter (fun x => x.1 ≠ r.1)).map Prod.fst).length
              _ (le_refl _) k hk
            obtain ⟨x, hx, hxk⟩ := List.mem_map.mp hmem
            have hfil := List.of_mem_filter hx
            intro hkr
            rw [← hxk] at hkr
            simp only [decide_eq_true_eq] at hfil
            exact hfil hkr
          rw [List.filter_cons_of_neg (by simp; exact fun hh => hkne hh.symm)]
          rw [filter_eq_key_of_ne k r.1 hkne R'])
      rw [hcong]
      have hlen' : (R'.filter (fun x => x.1 ≠ r.1)).length ≤ m := by
        have hle := List.length_filter_le (fun x : String × β => decide (x.1 ≠ r.1)) R'
        simp only [List.length_cons] at hR
        omega
      have hrest := ih (R'.filter (fun x => x.1 ≠ r.1)) hlen'
      have hsplit : List.Perm
          ((R'.filter (fun rr => rr.1 = r.1)).map Prod.snd
            ++ (R'.filter (fun x => x.1 ≠ r.1)).map Prod.snd)
          (R'.map Prod.snd) := by
        have hfc : R'.filter (fun x => x.1 ≠ r.1)
            = R'.filter (fun x => ! (fun rr => rr.1 = r.1) x) := by
          apply List.filter_congr
          intro x hx
          simp
        rw [hfc, ← List.map_append]
        exact (List.filter_append_perm _ R').map Prod.snd
      rw [List.map_cons, List.map_cons, List.cons_append]
      exact List.Perm.cons r.2 ((List.Perm.append_left _ hrest).trans hsplit)

theorem mem_dedupF_aux2 : ∀ (n : Nat) (l : List String), l.length ≤ n →
    ∀ x ∈ l, x ∈ dedupF l := by
  intro n
  induction n with
  | zero =>
    intro l hl x hx
    cases l with
    | nil => simp at hx
    | cons a as => simp at hl
  | succ m ih =>
    intro l hl x hx
    cases l with
    | nil => simp at hx
    | cons k ks =>
      rw [show dedupF (k :: ks) = k :: dedupF (ks.filter (fun y => y ≠ k)) from by
        rw [dedupF]]
      by_cases hxk : x = k
      · subst hxk; exact List.mem_cons_self _ _
      · rcases List.mem_cons.mp hx with rfl | hx'
        · exact absurd rfl hxk
        · apply List.mem_cons_of_mem
          have hlen : (ks.filter (fun y => y ≠ k)).length ≤ m := by
            have hle := List.length_filter_le (fun y => decide (y ≠ k)) ks
            simp only [List.length_cons] at hl
            omega
          exact ih _ hlen x (List.mem_filter.mpr ⟨hx', by simpa using hxk⟩)

theorem mem_dedupFirst (l : List String) (x : String) : x ∈ dedupFirst l ↔ x ∈ l := by
  rw [dedupFirst, dedupFirstAux_eq]
  rw [show l.filter (fun k => ! List.contains [] k) = l from
    List.filter_eq_self.mpr (fun a _ => rfl)]
  constructor
  · exact mem_dedupF_aux l.length l (le_refl _) x
  · exact mem_dedupF_aux2 l.length l (le_refl _) x

theorem buckets_flatMap_snd_perm (R : List (String × Package)) :
    List.Perm ((buckets R).flatMap (fun kp => kp.2)) (R.map Prod.snd) := by
  show List.Perm (((dedupFirst (R.map Prod.fst)).map
    (fun k => (k, bucketOf R k))).flatMap (fun kp => kp.2)) _
  rw [List.flatMap_map]
  rw [dedupFirst, dedupFirstAux_eq]
  rw [show (R.map Prod.fst).filter (fun k => ! List.contains [] k) = R.map Prod.fst from
    List.filter_eq_self.mpr (fun a _ => rfl)]
  exact dedupF_flatMap_perm_aux R.length R (le_refl _)

theorem fixVendored_packages (rootPkgs : List Package) (lib : Library) :
    (fixVendoredModule rootPkgs lib).packages = lib.packages := by
  unfold fixVendoredModule
  split
  · rfl
  · split
    · split
      · rfl
      · split
        · rfl
        · rfl
    · rfl

theorem fixVendored_licensePath (rootPkgs : List Package) (lib : Library) :
    (fixVendoredModule rootPkgs lib).licensePath = lib.licensePath := by
  unfold fixVendoredModule
  split
  · rfl
  · split
    · split
      · rfl
      · split
        · rfl
        · rfl
    · rfl

theorem libsOfBucket_flat_packages (rootPkgs : List Package) (key : String)
    (ps : List Package) :
    (libsOfBucket rootPkgs key ps).flatMap Library.packages = ps.map Package.pkgPath := by
  unfold libsOfBucket
  by_cases hk : key = ""
  · rw [if_pos hk]
    induction ps with
    | nil => rfl
    | cons p ps ih =>
      simp only [List.map_cons, List.flatMap_cons]
      rw [ih]
      rfl
  · rw [if_neg hk]
    simp only [List.flatMap_cons, List.flatMap_nil, List.append_nil]
    rw [fixVendored_packages]

theorem bucketLibs_flat_packages (rootPkgs : List Package)
    (bs : List (String × List Package)) :
    (bucketLibs rootPkgs bs).flatMap Library.packages
      = bs.flatMap (fun kp => kp.2.map Package.pkgPath) := by
  unfold bucketLibs
  rw [List.flatMap_assoc]
  exact flatMap_congr _ _ _ (fun kp _ => libsOfBucket_flat_packages rootPkgs kp.1 kp.2)

theorem map_nameEffect_flat_packages_perm : ∀ l : List Library,
    List.Perm ((l.map nameEffect).flatMap Library.packages) (l.flatMap Library.packages) := by
  intro l
  induction l with
  | nil => exact List.Perm.refl _
  | cons x xs ih =>
    simp only [List.map_cons, List.flatMap_cons]
    apply List.Perm.append _ ih
    unfold nameEffect
    split
    · exact sortStrings_perm _
    · exact List.Perm.refl _

theorem sortByName_perm (l : List Library) : List.Perm (sortByName l) l :=
  List.perm_insertionSort _ l

/-- The import paths of the packages that survived the filter, in
bucket-insertion order. -/
def survivorPaths (inp : Input) : List String :=
  (traverse inp).recorded.map (fun r => r.2.pkgPath)

theorem phase1_ok_inv (inp : Input) (R : List (String × Package))
    (h : phase1 inp = .ok R) : R = (traverse inp).recorded := by
  unfold phase1 at h
  by_cases hpe : (traverse inp).pkgErr = true
  · rw [if_pos hpe] at h
    exact Except.noConfusion h
  · rw [if_neg hpe] at h
    by_cases hoe : (traverse inp).otherErr = true
    · rw [if_pos hoe] at h
      exact Except.noConfusion h
    · rw [if_neg hoe] at h
      exact (Except.ok.inj h).symm

theorem librariesModel_ok_shape (inp : Input) (libs : List Library)
    (h : LibrariesModel inp = .ok libs) :
    ((bucketLibs (rootPackages inp) (buckets (traverse inp).recorded)).length ≤ 1 ∧
      libs = bucketLibs (rootPackages inp) (buckets (traverse inp).recorded)) ∨
    (2 ≤ (bucketLibs (rootPackages inp) (buckets (traverse inp).recorded)).length ∧
      libs = (sortByName (bucketLibs (rootPackages inp)
        (buckets (traverse inp).recorded))).map nameEffect) := by
  unfold LibrariesModel at h
  cases hp : phase1 inp with
  | error e => rw [hp] at h; exact Except.noConfusion h
  | ok R =>
    rw [hp] at h
    have hR := phase1_ok_inv inp R hp
    subst hR
    have h2 : (if (bucketLibs (rootPackages inp)
          (buckets (traverse inp).recorded)).length ≤ 1
        then Except.ok (ε := LibErr)
          (bucketLibs (rootPackages inp) (buckets (traverse inp).recorded))
        else Except.ok ((sortByName (bucketLibs (rootPackages inp)
          (buckets (traverse inp).recorded))).map nameEffect)) = Except.ok libs := h
    by_cases hlen : (bucketLibs (rootPackages inp) (buckets (traverse inp).recorded)).length ≤ 1
    · rw [if_pos hlen] at h2
      exact Or.inl ⟨hlen, (Except.ok.inj h2).symm⟩
    · rw [if_neg hlen] at h2
      exact Or.inr ⟨by omega, (Except.ok.inj h2).symm⟩

theorem librariesModel_packages_perm (inp : Input) (libs : List Library)
    (h : LibrariesModel inp = .ok libs) :
    List.Perm (libs.flatMap Library.packages) (survivorPaths inp) := by
  have hcore : List.Perm
      ((bucketLibs (rootPackages inp) (buckets (traverse inp).recorded)).flatMap
        Library.packages) (survivorPaths inp) := by
    rw [bucketLibs_flat_packages]
    have h1 : (buckets (traverse inp).recorded).flatMap (fun kp => kp.2.map Package.pkgPath)
        = ((buckets (traverse inp).recorded).flatMap (fun kp => kp.2)).map Package.pkgPath := by
      rw [List.map_flatMap]
    rw [h1]
    have h2 := (buckets_flatMap_snd_perm (traverse inp).recorded).map Package.pkgPath
    apply h2.trans
    rw [List.map_map]
    exact List.Perm.refl _
  rcases librariesModel_ok_shape inp libs h with ⟨_, rfl⟩ | ⟨_, rfl⟩
  · exact hcore
  · apply (map_nameEffect_flat_packages_perm _).trans
    apply List.Perm.trans _ hcore
    exact List.Perm.flatMap_right Library.packages (sortByName_perm _)

theorem mem_bucket_of_recorded (R : List (String × Package)) (k : String) (p : Package)
    (h : (k, p) ∈ R) : p ∈ bucketOf R k := by
  unfold bucketOf
  exact List.mem_map.mpr ⟨(k, p), List.mem_filter.mpr ⟨h, by simp⟩, rfl⟩

theorem bucket_mem_buckets (R : List (String × Package)) (k : String)
    (h : k ∈ R.map Prod.fst) : (k, bucketOf R k) ∈ buckets R := by
  unfold buckets
  exact List.mem_map.mpr ⟨k, (mem_dedupFirst _ _).mpr h, rfl⟩

theorem mem_buckets_elim (R : List (String × Package)) (kp : String × List Package)
    (h : kp ∈ buckets R) : kp.2 = bucketOf R kp.1 := by
  unfold buckets at h
  obtain ⟨k, _, heq⟩ := List.mem_map.mp h
  rw [← heq]

theorem bucket_path_record (R : List (String × Package)) (k : String) (pa : String)
    (h : pa ∈ (bucketOf R k).map Package.pkgPath) :
    ∃ p, (k, p) ∈ R ∧ p.pkgPath = pa := by
  unfold bucketOf at h
  rw [List.map_map] at h
  obtain ⟨r, hr, hrp⟩ := List.mem_map.mp h
  have hmem := List.mem_of_mem_filter hr
  have hkey : r.1 = k := by simpa using List.of_mem_filter hr
  refine ⟨r.2, ?_, hrp⟩
  rw [← hkey]
  simpa using hmem

theorem mem_libsOfBucket_elim (rootPkgs : List Package) (k : String) (ps : List Package)
    (l : Library) (h : l ∈ libsOfBucket rootPkgs k ps) :
    (k = "" ∧ ∃ p ∈ ps, l = ⟨"", [p.pkgPath], p.module⟩) ∨
    (k ≠ "" ∧ l = fixVendoredModule rootPkgs ⟨k, ps.map Package.pkgPath, firstModule ps⟩) := by
  unfold libsOfBucket at h
  by_cases hk : k = ""
  · rw [if_pos hk] at h
    obtain ⟨p, hp, heq⟩ := List.mem_map.mp h
    exact Or.inl ⟨hk, p, hp, heq.symm⟩
  · rw [if_neg hk] at h
    simp only [List.mem_singleton] at h
    exact Or.inr ⟨hk, h⟩

theorem nameEffect_packages_perm (l : Library) :
    List.Perm (nameEffect l).packages l.packages := by
  unfold nameEffect
  split
  · exact sortStrings_perm _
  · exact List.Perm.refl _

/-- Membership of two paths in a common final library is equivalent to
membership in a common bucket-built library. -/
theorem final_mem_iff (inp : Input) (libs : List Library)
    (h : LibrariesModel inp = .ok libs) (pa qa : String) :
    (∃ l ∈ libs, pa ∈ l.packages ∧ qa ∈ l.packages) ↔
    (∃ l0 ∈ bucketLibs (rootPackages inp) (buckets (traverse inp).recorded),
      pa ∈ l0.packages ∧ qa ∈ l0.packages) := by
  rcases librariesModel_ok_shape inp libs h with ⟨_, rfl⟩ | ⟨_, rfl⟩
  · exact Iff.rfl
  · constructor
    · intro hw
      obtain ⟨l, hl, hpa, hqa⟩ := hw
      obtain ⟨l0, hl0, heq⟩ := List.mem_map.mp hl
      refine ⟨l0, (sortByName_perm _).mem_iff.mp hl0, ?_, ?_⟩
      · exact (nameEffect_packages_perm l0).mem_iff.mp (by rw [heq]; exact hpa)
      · exact (nameEffect_packages_perm l0).mem_iff.mp (by rw [heq]; exact hqa)
    · intro hw
      obtain ⟨l0, hl0, hpa, hqa⟩ := hw
      refine ⟨nameEffect l0, List.mem_map.mpr ⟨l0, (sortByName_perm _).mem_iff.mpr hl0, rfl⟩,
        ?_, ?_⟩
      · exact (nameEffect_packages_perm l0).mem_iff.mpr hpa
      · exact (nameEffect_packages_perm l0).mem_iff.mpr hqa

/-- C1: for every run on which Libraries succeeds, the returned list of
Libraries partitions the surviving package set: a path appears in some
member list exactly when its package survived the filter, each surviving
path occurs exactly once across all member lists, and two surviving
packages that both carry a discovered license are placed in one common
Library exactly when their discovered license paths are identical
strings. -/
theorem c1_partition (inp : Input) (libs : List Library)
    (h : LibrariesModel inp = .ok libs) :
    (∀ pa, pa ∈ survivorPaths inp ↔ ∃ l ∈ libs, pa ∈ l.packages) ∧
    (∀ pa, pa ∈ survivorPaths inp → (libs.flatMap Library.packages).count pa = 1) ∧
    (∀ kp kq p q, (kp, p) ∈ (traverse inp).recorded → (kq, q) ∈ (traverse inp).recorded →
      p.pkgPath ≠ q.pkgPath → kp ≠ "" → kq ≠ "" →
      ((∃ l ∈ libs, p.pkgPath ∈ l.packages ∧ q.pkgPath ∈ l.packages) ↔ kp = kq)) := by
  have hperm := librariesModel_packages_perm inp libs h
  have hnd : (survivorPaths inp).Nodup := (traverse_recorded_ok inp).2
  refine ⟨?_, ?_, ?_⟩
  · intro pa
    rw [show (∃ l ∈ libs, pa ∈ l.packages) ↔ pa ∈ libs.flatMap Library.packages from
      (List.mem_flatMap).symm]
    exact (hperm.mem_iff).symm
  · intro pa hpa
    rw [hperm.count_eq]
    exact List.count_eq_one_of_mem hnd hpa
  · intro kp kq p q hp hq hne hkp hkq
    rw [final_mem_iff inp libs h]
    set R := (traverse inp).recorded with hR
    have hinj := List.inj_on_of_nodup_map (f := fun r : String × Package => r.2.pkgPath) hnd
    constructor
    · intro hw
      obtain ⟨l0, hl0, hpa, hqa⟩ := hw
      obtain ⟨kb, hkb, hlb⟩ := List.mem_flatMap.mp hl0
      have hbv := mem_buckets_elim R kb hkb
      rcases mem_libsOfBucket_elim _ _ _ _ hlb with ⟨hk0, x, _, rfl⟩ | ⟨hk0, rfl⟩
      · simp only [List.mem_singleton] at hpa hqa
        exact absurd (hpa.trans hqa.symm) hne
      · rw [fixVendored_packages] at hpa hqa
        rw [hbv] at hpa hqa
        obtain ⟨p', hp', hp'a⟩ := bucket_path_record R kb.1 p.pkgPath hpa
        obtain ⟨q', hq', hq'a⟩ := bucket_path_record R kb.1 q.pkgPath hqa
        have hpe : ((kb.1, p') : String × Package) = (kp, p) := hinj hp' hp hp'a
        have hqe : ((kb.1, q') : String × Package) = (kq, q) := hinj hq' hq hq'a
        have h1 : kb.1 = kp := congrArg Prod.fst hpe
        have h2 : kb.1 = kq := congrArg Prod.fst hqe
        rw [← h1, ← h2]
    · intro hkk
      subst hkk
      have hkey : kp ∈ R.map Prod.fst := List.mem_map.mpr ⟨(kp, p), hp, rfl⟩
      refine ⟨fixVendoredModule (rootPackages inp)
          ⟨kp, (bucketOf R kp).map Package.pkgPath, firstModule (bucketOf R kp)⟩, ?_, ?_, ?_⟩
      · apply List.mem_flatMap.mpr
        refine ⟨(kp, bucketOf R kp), bucket_mem_buckets R kp hkey, ?_⟩
        unfold libsOfBucket
        rw [if_neg hkp]
        simp
      · rw [fixVendored_packages]
        exact List.mem_map.mpr ⟨p, mem_bucket_of_recorded R kp p hp, rfl⟩
      · rw [fixVendored_packages]
        exact List.mem_map.mpr ⟨q, mem_bucket_of_recorded R kp q hq, rfl⟩

def exPartitionInput : Input :=
  { goroot := "/goroot"
    includeTests := false
    ignoredPaths := []
    find := fun d _ => if d = "/m/x" ∨ d = "/m/y" then "/m/LICENSE" else ""
    graph := [⟨"m/x", "x", ["/m/x/f.go"], [], [], some ⟨"m", "v1", "/m"⟩, 0, []⟩,
              ⟨"m/y", "y", ["/m/y/f.go"], [], [], some ⟨"m", "v1", "/m"⟩, 0, []⟩,
              ⟨"n/z", "z", ["/m/z/f.go"], [], [], some ⟨"m", "v1", "/m"⟩, 0, []⟩]
    roots := ["m/x", "m/y", "n/z"] }

/-- Witness for C1 at a concrete run with one two-member licensed
library and one unlicensed single-member library. -/
theorem c1_partition_witness :
    (∀ pa, pa ∈ survivorPaths exPartitionInput ↔
      ∃ l ∈ [(⟨"/m/LICENSE", ["m/x", "m/y"], some ⟨"m", "v1", "/m"⟩⟩ : Library),
             ⟨"", ["n/z"], some ⟨"m", "v1", "/m"⟩⟩], pa ∈ l.packages) ∧
    (∀ pa, pa ∈ survivorPaths exPartitionInput →
      (([(⟨"/m/LICENSE", ["m/x", "m/y"], some ⟨"m", "v1", "/m"⟩⟩ : Library),
         ⟨"", ["n/z"], some ⟨"m", "v1", "/m"⟩⟩] : List Library).flatMap
        Library.packages).count pa = 1) ∧
    (∀ kp kq p q, (kp, p) ∈ (traverse exPartitionInput).recorded →
      (kq, q) ∈ (traverse exPartitionInput).recorded →
      p.pkgPath ≠ q.pkgPath → kp ≠ "" → kq ≠ "" →
      ((∃ l ∈ [(⟨"/m/LICENSE", ["m/x", "m/y"], some ⟨"m", "v1", "/m"⟩⟩ : Library),
               ⟨"", ["n/z"], some ⟨"m", "v1", "/m"⟩⟩],
        p.pkgPath ∈ l.packages ∧ q.pkgPath ∈ l.packages) ↔ kp = kq)) :=
  c1_partition exPartitionInput
    [⟨"/m/LICENSE", ["m/x", "m/y"], some ⟨"m", "v1", "/m"⟩⟩,
     ⟨"", ["n/z"], some ⟨"m", "v1", "/m"⟩⟩] (by decide)

/-! ## Claim C7: bucket libraries and member order -/

theorem sortStrings_short (l : List String) (h : l.length ≤ 1) : sortStrings l = l := by
  match l, h with
  | [], _ => rfl
  | [x], _ => rfl
  | x :: y :: rest, h => simp at h

theorem nameEffect_packages (l : Library) :
    (nameEffect l).packages = sortStrings l.packages := by
  unfold nameEffect
  split
  · rfl
  · rename_i hlen
    rw [sortStrings_short _ (by omega)]

theorem librariesModel_ok_length (inp : Input) (libs : List Library)
    (h : LibrariesModel inp = .ok libs) :
    libs.length = (bucketLibs (rootPackages inp) (buckets (traverse inp).recorded)).length := by
  rcases librariesModel_ok_shape inp libs h with ⟨_, rfl⟩ | ⟨_, rfl⟩
  · rfl
  · rw [List.length_map, (sortByName_perm _).length_eq]

/-- C7 (amended): for every non-empty license bucket the emitted Library
carries exactly the bucket's member import paths and the module of the
first member that has one (then subject to the vendoring fixup); the
insertion order of the member list is preserved in the returned Library
only when the output has at most one library — with two or more
libraries the final sort calls Name on every library, and Name sorts the
member slice in place, so the returned member list is sorted
lexicographically instead. -/
theorem c7_bucket_library (inp : Input) (libs : List Library)
    (h : LibrariesModel inp = .ok libs) (k : String) (ps : List Package) (hk : k ≠ "")
    (hb : (k, ps) ∈ buckets (traverse inp).recorded) :
    (libs.length ≤ 1 →
      fixVendoredModule (rootPackages inp)
        ⟨k, ps.map Package.pkgPath, firstModule ps⟩ ∈ libs) ∧
    (2 ≤ libs.length →
      nameEffect (fixVendoredModule (rootPackages inp)
        ⟨k, ps.map Package.pkgPath, firstModule ps⟩) ∈ libs ∧
      (nameEffect (fixVendoredModule (rootPackages inp)
        ⟨k, ps.map Package.pkgPath, firstModule ps⟩)).packages
        = sortStrings (ps.map Package.pkgPath)) := by
  have hmem0 : fixVendoredModule (rootPackages inp)
      ⟨k, ps.map Package.pkgPath, firstModule ps⟩
      ∈ bucketLibs (rootPackages inp) (buckets (traverse inp).recorded) := by
    apply List.mem_flatMap.mpr
    refine ⟨(k, ps), hb, ?_⟩
    unfold libsOfBucket
    rw [if_neg hk]
    simp
  have hlen := librariesModel_ok_length inp libs h
  rcases librariesModel_ok_shape inp libs h with ⟨hl1, rfl⟩ | ⟨hl2, rfl⟩
  · constructor
    · intro _
      exact hmem0
    · intro h2
      omega
  · constructor
    · intro h1
      omega
    · intro _
      constructor
      · exact List.mem_map.mpr ⟨_, (sortByName_perm _).mem_iff.mpr hmem0, rfl⟩
      · rw [nameEffect_packages, fixVendored_packages]

def exMod : GoModule := ⟨"m", "v1", "/m"⟩

def exPkgBY : Package := ⟨"b/y", "y", ["/m/by/f.go"], [], [], some exMod, 0, []⟩

def exPkgBX : Package := ⟨"b/x", "x", ["/m/bx/f.go"], [], [], some exMod, 0, []⟩

def exPkgCZ : Package := ⟨"c/z", "z", ["/m/cz/f.go"], [], [], some exMod, 0, []⟩

def exOrderInput : Input :=
  { goroot := "/goroot"
    includeTests := false
    ignoredPaths := []
    find := fun d _ => if d = "/m/by" ∨ d = "/m/bx" then "L1" else "L2"
    graph := [exPkgBY, exPkgBX, exPkgCZ]
    roots := ["b/y", "b/x", "c/z"] }

/-- C7 counterexample: the non-empty bucket L1 collects b/y and then b/x
in insertion order, but the Library handed back to the caller holds the
members as b/x, b/y: the final sort.Slice comparator evaluates Name,
which sorts the member slice in place, so the bucket insertion order is
NOT preserved in the returned Library. -/
theorem c7_counterexample :
    buckets (traverse exOrderInput).recorded
      = [("L1", [exPkgBY, exPkgBX]), ("L2", [exPkgCZ])] ∧
    LibrariesModel exOrderInput = .ok
      [⟨"L1", ["b/x", "b/y"], some exMod⟩, ⟨"L2", ["c/z"], some exMod⟩] ∧
    (["b/x", "b/y"] : List String) ≠ ["b/y", "b/x"] := by decide

/-- Witness for the amended C7 at the same concrete run. -/
theorem c7_bucket_library_witness :
    (([⟨"L1", ["b/x", "b/y"], some exMod⟩,
       (⟨"L2", ["c/z"], some exMod⟩ : Library)] : List Library).length ≤ 1 →
      fixVendoredModule (rootPackages exOrderInput)
        ⟨"L1", [exPkgBY, exPkgBX].map Package.pkgPath, firstModule [exPkgBY, exPkgBX]⟩
        ∈ [⟨"L1", ["b/x", "b/y"], some exMod⟩, ⟨"L2", ["c/z"], some exMod⟩]) ∧
    (2 ≤ ([⟨"L1", ["b/x", "b/y"], some exMod⟩,
       (⟨"L2", ["c/z"], some exMod⟩ : Library)] : List Library).length →
      nameEffect (fixVendoredModule (rootPackages exOrderInput)
        ⟨"L1", [exPkgBY, exPkgBX].map Package.pkgPath, firstModule [exPkgBY, exPkgBX]⟩)
        ∈ [⟨"L1", ["b/x", "b/y"], some exMod⟩, ⟨"L2", ["c/z"], some exMod⟩] ∧
      (nameEffect (fixVendoredModule (rootPackages exOrderInput)
        ⟨"L1", [exPkgBY, exPkgBX].map Package.pkgPath, firstModule [exPkgBY, exPkgBX]⟩)).packages
        = sortStrings ([exPkgBY, exPkgBX].map Package.pkgPath)) :=
  c7_bucket_library exOrderInput
    [⟨"L1", ["b/x", "b/y"], some exMod⟩, ⟨"L2", ["c/z"], some exMod⟩]
    (by decide) "L1" [exPkgBY, exPkgBX] (by decide) (by decide)

/-! ## Claim C2: determinism of the output -/

theorem perm_short {α : Type} : ∀ {l1 l2 : List α}, List.Perm l1 l2 → l1.length ≤ 1 →
    l1 = l2 := by
  intro l1 l2 h hl
  match l1, hl with
  | [], _ => exact (h.symm.eq_nil).symm
  | [a], _ => exact List.singleton_perm.mp h
  | x :: y :: r, hl => simp at hl

theorem sorted_short {α : Type} (r : α → α → Prop) : ∀ (l : List α), l.length ≤ 1 →
    List.Sorted r l := by
  intro l hl
  match l, hl with
  | [], _ => exact List.Pairwise.nil
  | [a], _ => exact List.sorted_singleton a
  | x :: y :: t, hl => simp at hl

/-- The strict part of the name order, with antisymmetry holding
vacuously. -/
def nameLtStrict (a b : Library) : Prop := nameLe a b ∧ a.Name ≠ b.Name

instance : IsAntisymm Library nameLtStrict where
  antisymm := by
    intro a b h1 h2
    exact absurd (antisymm (r := strLe) h1.1 h2.1) h1.2

theorem sorted_strict_of_nodup (res : List Library) (hs : List.Sorted nameLe res)
    (hn : (res.map Library.Name).Nodup) : List.Sorted nameLtStrict res := by
  have hpair : List.Pairwise (fun a b : Library => a.Name ≠ b.Name) res :=
    (List.pairwise_map).mp hn
  exact hs.and hpair

/-- C2 (amended): the outputs of any two runs on the same input agree on
the error case, and on success they hold the same multiset of libraries
sorted by name; the sorted order, and hence the whole output, is unique
whenever all library names are distinct, but two distinct libraries with
equal names may legitimately come back in either order (the map
iteration order is unspecified and the final sort is not stable). -/
theorem c2_grouping_determinism (inp : Input)
    (out1 out2 : Except LibErr (List Library))
    (h1 : ValidOutcome inp out1) (h2 : ValidOutcome inp out2) :
    (∀ e, out1 = .error e → out2 = .error e) ∧
    (∀ l1 l2, out1 = .ok l1 → out2 = .ok l2 →
      List.Perm l1 l2 ∧ List.Sorted nameLe l1 ∧
      ((l1.map Library.Name).Nodup → l1 = l2)) := by
  unfold ValidOutcome at h1 h2
  cases hp : phase1 inp with
  | error e0 =>
    rw [hp] at h1 h2
    have h1' : out1 = Except.error e0 := h1
    have h2' : out2 = Except.error e0 := h2
    constructor
    · intro e he
      rw [h1'] at he
      rw [Except.error.inj he] at h2'
      exact h2'
    · intro l1 l2 ho1 _
      rw [h1'] at ho1
      exact Except.noConfusion ho1
  | ok R =>
    rw [hp] at h1 h2
    have h1' : ∃ bs, List.Perm bs (buckets R) ∧
        validFinal (rootPackages inp) bs out1 := h1
    have h2' : ∃ bs, List.Perm bs (buckets R) ∧
        validFinal (rootPackages inp) bs out2 := h2
    obtain ⟨bs1, hbs1, hv1⟩ := h1'
    obtain ⟨bs2, hbs2, hv2⟩ := h2'
    have hlibsperm : List.Perm (bucketLibs (rootPackages inp) bs1)
        (bucketLibs (rootPackages inp) bs2) :=
      List.Perm.flatMap_right _ (hbs1.trans hbs2.symm)
    unfold validFinal at hv1 hv2
    by_cases hlen : (bucketLibs (rootPackages inp) bs1).length ≤ 1
    · rw [if_pos hlen] at hv1
      rw [if_pos (by rw [← hlibsperm.length_eq]; exact hlen)] at hv2
      constructor
      · intro e he
        rw [hv1] at he
        exact Except.noConfusion he
      · intro l1 l2 ho1 ho2
        rw [hv1] at ho1
        rw [hv2] at ho2
        have he1 := Except.ok.inj ho1
        have he2 := Except.ok.inj ho2
        subst he1
        subst he2
        refine ⟨hlibsperm, sorted_short _ _ hlen, fun _ => perm_short hlibsperm hlen⟩
    · rw [if_neg hlen] at hv1
      rw [if_neg (by rw [← hlibsperm.length_eq]; exact hlen)] at hv2
      obtain ⟨res1, hr1, hs1, ho1'⟩ := hv1
      obtain ⟨res2, hr2, hs2, ho2'⟩ := hv2
      constructor
      · intro e he
        rw [ho1'] at he
        exact Except.noConfusion he
      · intro l1 l2 ho1 ho2
        rw [ho1'] at ho1
        rw [ho2'] at ho2
        have he1 := Except.ok.inj ho1
        have he2 := Except.ok.inj ho2
        subst he1
        subst he2
        have hperm12 : List.Perm res1 res2 :=
          (hr1.trans (hlibsperm.map nameEffect)).trans hr2.symm
        refine ⟨hperm12, hs1, ?_⟩
        intro hnod
        have hnod2 : (res2.map Library.Name).Nodup :=
          ((hperm12.map Library.Name).nodup_iff).mp hnod
        exact List.eq_of_perm_of_sorted hperm12
          (sorted_strict_of_nodup res1 hs1 hnod)
          (sorted_strict_of_nodup res2 hs2 hnod2)

def exPkgABC : Package := ⟨"a/b/c", "c", ["/m/abc/f.go"], [], [], some exMod, 0, []⟩

def exPkgABD : Package := ⟨"a/b/d", "d", ["/m/abd/f.go"], [], [], some exMod, 0, []⟩

def exPkgAB : Package := ⟨"a/b", "b", ["/m/ab/f.go"], [], [], some exMod, 0, []⟩

def exEqNamesInput : Input :=
  { goroot := "/goroot"
    includeTests := false
    ignoredPaths := []
    find := fun d _ => if d = "/m/abc" ∨ d = "/m/abd" then "lic1" else "lic2"
    graph := [exPkgABC, exPkgABD, exPkgAB]
    roots := ["a/b/c", "a/b/d", "a/b"] }

def exLibA : Library := ⟨"lic1", ["a/b/c", "a/b/d"], some exMod⟩

def exLibB : Library := ⟨"lic2", ["a/b"], some exMod⟩

theorem exEqNames_valid1 : ValidOutcome exEqNamesInput (.ok [exLibA, exLibB]) := by
  show ∃ bs, List.Perm bs (buckets (traverse exEqNamesInput).recorded) ∧
    validFinal (rootPackages exEqNamesInput) bs (.ok [exLibA, exLibB])
  refine ⟨buckets (traverse exEqNamesInput).recorded, List.Perm.refl _, ?_⟩
  unfold validFinal
  rw [if_neg (by decide)]
  exact ⟨[exLibA, exLibB], by decide, by decide, rfl⟩

theorem exEqNames_valid2 : ValidOutcome exEqNamesInput (.ok [exLibB, exLibA]) := by
  show ∃ bs, List.Perm bs (buckets (traverse exEqNamesInput).recorded) ∧
    validFinal (rootPackages exEqNamesInput) bs (.ok [exLibB, exLibA])
  refine ⟨buckets (traverse exEqNamesInput).recorded, List.Perm.refl _, ?_⟩
  unfold validFinal
  rw [if_neg (by decide)]
  exact ⟨[exLibB, exLibA], by decide, by decide, rfl⟩

/-- C2 counterexample: on this input two distinct libraries share the
display name a/b, and both output orders are possible results of a run
(the bucket map iterates in unspecified order and sort.Slice is not
stable), so the output order is not identical across runs. -/
theorem c2_counterexample :
    ValidOutcome exEqNamesInput (.ok [exLibA, exLibB]) ∧
    ValidOutcome exEqNamesInput (.ok [exLibB, exLibA]) ∧
    exLibA.Name = exLibB.Name ∧ exLibA ≠ exLibB ∧
    (Except.ok (ε := LibErr) [exLibA, exLibB]) ≠ .ok [exLibB, exLibA] :=
  ⟨exEqNames_valid1, exEqNames_valid2, by decide, by decide, by decide⟩

/-- Witness for the amended C2 at the two concrete outputs above. -/
theorem c2_grouping_determinism_witness :
    List.Perm [exLibA, exLibB] [exLibB, exLibA] ∧ List.Sorted nameLe [exLibA, exLibB] ∧
    (([exLibA, exLibB].map Library.Name).Nodup → [exLibA, exLibB] = [exLibB, exLibA]) :=
  (c2_grouping_determinism exEqNamesInput (.ok [exLibA, exLibB]) (.ok [exLibB, exLibA])
    exEqNames_valid1 exEqNames_valid2).2 [exLibA, exLibB] [exLibB, exLibA] rfl rfl

/-! ## Claim C8: FileURL failure cases -/

theorem splitSegsAux_cons (cur : List Char) (c : Char) (cs : List Char) :
    splitSegsAux cur (c :: cs)
      = if c = '/' then cur.reverse :: splitSegsAux [] cs
        else splitSegsAux (c :: cur) cs := rfl

theorem cleanSegs_cons (rooted : Bool) (acc : List (List Char)) (s : List Char)
    (rest : List (List Char)) :
    cleanSegs rooted acc (s :: rest)
      = if s = [] ∨ s = ['.'] then cleanSegs rooted acc rest
        else if s = ['.', '.'] then
          (match acc with
           | [] => if rooted then cleanSegs rooted [] rest
                   else cleanSegs rooted [['.', '.']] rest
           | t :: acc' =>
             if t = ['.', '.'] then cleanSegs rooted (['.', '.'] :: acc) rest
             else cleanSegs rooted acc' rest)
        else cleanSegs rooted (s :: acc) rest := rfl

theorem mem_splitSegsAux_noslash : ∀ (l cur : List Char), '/' ∉ cur →
    ∀ x ∈ splitSegsAux cur l, '/' ∉ x := by
  intro l
  induction l with
  | nil =>
    intro cur hcur x hx
    simp only [splitSegsAux, List.mem_singleton] at hx
    subst hx
    simpa using hcur
  | cons c cs ih =>
    intro cur hcur x hx
    by_cases hc : c = '/'
    · rw [show splitSegsAux cur (c :: cs) = cur.reverse :: splitSegsAux [] cs from by
        simp [splitSegsAux, hc]] at hx
      rcases List.mem_cons.mp hx with rfl | hx'
      · simpa using hcur
      · exact ih [] (by simp) x hx'
    · rw [show splitSegsAux cur (c :: cs) = splitSegsAux (c :: cur) cs from by
        simp [splitSegsAux, hc]] at hx
      exact ih (c :: cur) (by simp [hcur, Ne.symm hc]) x hx

theorem mem_cleanSegs_rooted : ∀ (l acc : List (List Char)) (x : List Char),
    x ∈ cleanSegs true acc l →
    x ∈ acc ∨ (x ∈ l ∧ x ≠ [] ∧ x ≠ ['.'] ∧ x ≠ ['.', '.']) := by
  intro l
  induction l with
  | nil =>
    intro acc x hx
    have hx2 : x ∈ acc.reverse := hx
    exact Or.inl (by simpa using hx2)
  | cons s rest ih =>
    intro acc x hx
    rw [cleanSegs_cons] at hx
    by_cases hse : s = [] ∨ s = ['.']
    · rw [if_pos hse] at hx
      rcases ih acc x hx with h | ⟨h1, h2⟩
      · exact Or.inl h
      · exact Or.inr ⟨List.mem_cons_of_mem _ h1, h2⟩
    · rw [if_neg hse] at hx
      by_cases hdd : s = ['.', '.']
      · rw [if_pos hdd] at hx
        cases acc with
        | nil =>
          have hx2 : x ∈ cleanSegs true [] rest := hx
          rcases ih [] x hx2 with h | ⟨h1, h2⟩
          · exact Or.inl h
          · exact Or.inr ⟨List.mem_cons_of_mem _ h1, h2⟩
        | cons t acc2 =>
          have hx2 : x ∈ (if t = ['.', '.'] then cleanSegs true (['.', '.'] :: t :: acc2) rest
              else cleanSegs true acc2 rest) := hx
          by_cases ht : t = ['.', '.']
          · rw [if_pos ht] at hx2
            rcases ih _ x hx2 with h | ⟨h1, h2⟩
            · rcases List.mem_cons.mp h with rfl | h2
              · exact Or.inl (by rw [ht]; exact List.mem_cons_self _ _)
              · exact Or.inl h2
            · exact Or.inr ⟨List.mem_cons_of_mem _ h1, h2⟩
          · rw [if_neg ht] at hx2
            rcases ih acc2 x hx2 with h | ⟨h1, h2⟩
            · exact Or.inl (List.mem_cons_of_mem _ h)
            · exact Or.inr ⟨List.mem_cons_of_mem _ h1, h2⟩
      · rw [if_neg hdd] at hx
        rcases ih (s :: acc) x hx with h | ⟨h1, h2⟩
        · rcases List.mem_cons.mp h with rfl | h2
          · push_neg at hse
            exact Or.inr ⟨List.mem_cons_self _ _, hse.1, hse.2, hdd⟩
          · exact Or.inl h2
        · exact Or.inr ⟨List.mem_cons_of_mem _ h1, h2⟩

theorem splitSegsAux_append : ∀ (s cur t : List Char), '/' ∉ s →
    splitSegsAux cur (s ++ t) = splitSegsAux (s.reverse ++ cur) t := by
  intro s
  induction s with
  | nil => intro cur t _; simp
  | cons c cs ih =>
    intro cur t hs
    have hc : c ≠ '/' := by
      intro hh
      exact hs (by rw [hh]; exact List.mem_cons_self _ _)
    rw [List.cons_append, splitSegsAux_cons, if_neg hc]
    rw [ih (c :: cur) t (fun hh => hs (List.mem_cons_of_mem _ hh))]
    congr 1
    simp

theorem splitSegsAux_join : ∀ (segs : List (List Char)), segs ≠ [] →
    (∀ s ∈ segs, '/' ∉ s) → splitSegsAux [] (joinSegs segs) = segs := by
  intro segs
  induction segs with
  | nil => intro h; exact absurd rfl h
  | cons s rest ih =>
    intro _ hsl
    cases rest with
    | nil =>
      show splitSegsAux [] s = [s]
      have h := splitSegsAux_append s [] [] (hsl s (by simp))
      simp only [List.append_nil] at h
      rw [h]
      show [s.reverse.reverse] = [s]
      simp
    | cons s2 rest2 =>
      show splitSegsAux [] (s ++ '/' :: joinSegs (s2 :: rest2)) = s :: s2 :: rest2
      rw [splitSegsAux_append s [] _ (hsl s (by simp))]
      rw [splitSegsAux_cons, if_pos rfl]
      rw [ih (by simp) (fun x hx => hsl x (List.mem_cons_of_mem _ hx))]
      simp

theorem filepathClean_rooted_shape (p : String) (hp : p.data.headD ' ' = '/') :
    filepathClean p = "/" ∨
    (∃ segs, segs ≠ [] ∧ (∀ s ∈ segs, '/' ∉ s ∧ s ≠ [] ∧ s ≠ ['.', '.']) ∧
      filepathClean p = String.mk ('/' :: joinSegs segs)) := by
  have hne : p ≠ "" := by
    intro hh
    rw [hh] at hp
    simp at hp
  unfold filepathClean
  rw [if_neg hne, if_pos hp]
  cases hsegs : cleanSegs true [] (splitSegs p) with
  | nil => rw [if_pos rfl]; exact Or.inl rfl
  | cons s ss =>
    rw [if_neg (by simp)]
    right
    refine ⟨s :: ss, by simp, ?_, rfl⟩
    intro x hx
    have hmem := mem_cleanSegs_rooted (splitSegs p) [] x (by rw [hsegs]; exact hx)
    rcases hmem with h | ⟨h1, h2, _, h4⟩
    · simp at h
    · exact ⟨mem_splitSegsAux_noslash p.data [] (by simp) x h1, h2, h4⟩

theorem relElems_clean_rooted (p : String) (hp : p.data.headD ' ' = '/') :
    (∀ x ∈ relElems (filepathClean p), x ≠ ['.', '.']) ∧
    (filepathClean p).data.headD ' ' = '/' ∧ filepathClean p ≠ "." := by
  rcases filepathClean_rooted_shape p hp with hroot | ⟨segs, hne, hgood, heq⟩
  · rw [hroot]
    refine ⟨?_, by decide, by decide⟩
    intro x hx
    rw [show relElems "/" = [[]] from rfl] at hx
    simp only [List.mem_singleton] at hx
    subst hx
    simp
  · rw [heq]
    refine ⟨?_, by simp, ?_⟩
    · intro x hx
      unfold relElems at hx
      by_cases hslash : String.mk ('/' :: joinSegs segs) = "/"
      · rw [if_pos hslash] at hx
        simp only [List.mem_singleton] at hx
        subst hx
        simp
      · rw [if_neg hslash] at hx
        unfold splitSegs at hx
        rw [show (String.mk ('/' :: joinSegs segs)).data = '/' :: joinSegs segs from rfl] at hx
        rw [splitSegsAux_cons, if_pos rfl] at hx
        rw [splitSegsAux_join segs hne (fun s hs => (hgood s hs).1)] at hx
        rcases List.mem_cons.mp hx with rfl | hx2
        · simp
        · exact (hgood x hx2).2.2
    · intro hh
      have hcontra : ('/' : Char) = '.' := by
        have hd := congrArg (fun s : String => s.data.headD ' ') hh
        simpa using hd
      simp at hcontra

theorem relSegs_fst_mem : ∀ (bs ts : List (List Char)), ∀ x ∈ (relSegs bs ts).1, x ∈ bs := by
  intro bs
  induction bs with
  | nil => intro ts x hx; simp [relSegs] at hx
  | cons b bs ih =>
    intro ts x hx
    cases ts with
    | nil =>
      rw [show relSegs (b :: bs) [] = (b :: bs, []) from rfl] at hx
      exact hx
    | cons t ts =>
      by_cases hbt : b = t
      · rw [show relSegs (b :: bs) (t :: ts) = relSegs bs ts from by
          simp [relSegs, hbt]] at hx
        exact List.mem_cons_of_mem _ (ih ts x hx)
      · rw [show relSegs (b :: bs) (t :: ts) = (b :: bs, t :: ts) from by
          simp [relSegs, hbt]] at hx
        exact hx

theorem filepathRel_abs_ok (b t : String) (hb : b.data.headD ' ' = '/')
    (ht : t.data.headD ' ' = '/') : ∃ u, filepathRel b t = .ok u := by
  obtain ⟨hbdd, hbhead, hbdot⟩ := relElems_clean_rooted b hb
  obtain ⟨htdd, hthead, _⟩ := relElems_clean_rooted t ht
  have hbne : filepathClean b ≠ "" := by
    intro hh
    rw [hh] at hbhead
    simp at hbhead
  have hbase : relBaseC b = filepathClean b := by
    unfold relBaseC
    rw [if_neg hbdot]
  have hrb : relBsegs b t
      = relSegs (relElems (filepathClean b)) (relElems (filepathClean t)) := by
    unfold relBsegs
    rw [hbase, if_neg hbne]
  unfold filepathRel
  by_cases heq : filepathClean t = filepathClean b
  · rw [if_pos heq]
    exact ⟨".", rfl⟩
  · rw [if_neg heq]
    have hbb : (((relBaseC b).data.headD ' ') == '/') = true := by
      rw [hbase]
      simpa using hbhead
    have htb : (((filepathClean t).data.headD ' ') == '/') = true := by
      simpa using hthead
    rw [hbb, htb, if_neg (by simp)]
    cases hbseg : (relBsegs b t).1 with
    | nil =>
      exact ⟨_, rfl⟩
    | cons b0 brest =>
      have hb0 : b0 ∈ relElems (filepathClean b) := by
        apply relSegs_fst_mem _ (relElems (filepathClean t)) b0
        rw [← hrb, hbseg]
        exact List.mem_cons_self _ _
      have hbne2 : b0 ≠ ['.', '.'] := hbdd b0 hb0
      show ∃ u, (if b0 = ['.', '.'] then
          (.error ("Rel: cannot make " ++ t ++ " relative to " ++ b) : Except String String)
        else .ok (String.mk
          (if (relBsegs b t).2 = []
           then joinSegs (List.replicate (b0 :: brest).length ['.', '.'])
           else joinSegs (List.replicate (b0 :: brest).length ['.', '.'])
             ++ '/' :: joinSegs (relBsegs b t).2))) = .ok u
      rw [if_neg hbne2]
      exact ⟨_, rfl⟩

/-- C8 (amended): Library.FileURL fails with an error whenever the
library has no associated module or the module's local directory is
empty; but, contrary to the claim, it does NOT fail when the file is not
under the module directory: whenever the module directory and the file
path are both absolute and the source-host lookup succeeds, a URL is
returned even for a file outside the module directory (filepath.Rel then
yields a dotdot-stepping relative path instead of an error). -/
theorem c8_fileurl_errors (mi : String → String → Except String Remote)
    (l : Library) (f : String) :
    (l.module = none →
      FileURL mi l f = .error "getting file URL: empty go module info") ∧
    (∀ m, l.module = some m → m.dir = "" →
      FileURL mi l f = .error "getting file URL: empty go module dir") ∧
    (∀ m r, l.module = some m → m.dir.data.headD ' ' = '/' →
      f.data.headD ' ' = '/' → mi m.path m.version = .ok r →
      ∃ u, FileURL mi l f = .ok u) := by
  rcases l with ⟨lp, pk, lmod⟩
  refine ⟨?_, ?_, ?_⟩
  · intro h
    simp only at h
    subst h
    rfl
  · intro m hm hdir
    simp only at hm
    subst hm
    show (if m.dir = "" then _ else _) = _
    rw [if_pos hdir]
  · intro m r hm hdirabs hfabs hmi
    simp only at hm
    subst hm
    have hdne : m.dir ≠ "" := by
      intro hh
      rw [hh] at hdirabs
      simp at hdirabs
    obtain ⟨u, hu⟩ := filepathRel_abs_ok m.dir f hdirabs hfabs
    refine ⟨(if m.version = "" then r.setCommit "HEAD" else r).fileURL u, ?_⟩
    show (if m.dir = "" then _ else _) = _
    rw [if_neg hdne]
    show (match mi m.path m.version with
          | .error e => _
          | .ok remote => _) = _
    rw [hmi]
    show (match filepathRel m.dir f with
          | .error e => Except.error e
          | .ok rel =>
            .ok ((if m.version = "" then r.setCommit "HEAD" else r).fileURL rel)) = _
    rw [hu]

/-- Witness for C8 at concrete libraries hitting all three cases. -/
theorem c8_fileurl_errors_witness :
    FileURL exMiOk ⟨"L", ["a"], none⟩ "/x"
      = .error "getting file URL: empty go module info" ∧
    FileURL exMiOk ⟨"L", ["a"], some ⟨"mod", "v1", ""⟩⟩ "/x"
      = .error "getting file URL: empty go module dir" ∧
    ∃ u, FileURL exMiOk ⟨"L", ["a"], some ⟨"mod", "v1", "/src/m"⟩⟩ "/src/m/LICENSE"
      = .ok u :=
  ⟨(c8_fileurl_errors exMiOk ⟨"L", ["a"], none⟩ "/x").1 rfl,
   (c8_fileurl_errors exMiOk ⟨"L", ["a"], some ⟨"mod", "v1", ""⟩⟩ "/x").2.1
     ⟨"mod", "v1", ""⟩ rfl rfl,
   (c8_fileurl_errors exMiOk ⟨"L", ["a"], some ⟨"mod", "v1", "/src/m"⟩⟩
       "/src/m/LICENSE").2.2
     ⟨"mod", "v1", "/src/m"⟩ exRemote rfl (by decide) (by decide) rfl⟩

/-- Counterexample to C8 as stated: the requested file lies outside the
module directory (its path does not start with the module directory),
yet FileURL succeeds, returning a URL whose relative part steps out of
the module tree with dotdot segments instead of failing. -/
theorem c8_counterexample :
    hasPrefixB "/other/LICENSE" "/src/m/" = false ∧
    FileURL exMiOk ⟨"L", ["a"], some ⟨"mod", "v1", "/src/m"⟩⟩ "/other/LICENSE"
      = .ok "https://host/v1/../../other/LICENSE" :=
  ⟨rfl, rfl⟩

end GoLicenses
